import Mathlib

/-!
# Verification of `extract_strings.py` (mozilla-l10n/nimbus-test)

Shallow embedding of `.github/scripts/extract_strings.py`.

The script's state is `self.translations : defaultdict(dict)`, a Python dict
mapping locale code → (dict mapping composite key `experiment:message` →
translated string).  Python dicts are insertion-ordered with unique keys;
we model them as association lists (`List (String × α)`) together with
operations that reproduce Python's semantics exactly:

* lookup returns the (unique) binding;
* assignment to an existing key replaces the value in place, assignment to
  a fresh key appends at the end;
* `defaultdict` lookup of a missing key inserts an empty value at the end;
* deletion removes the binding.

File-system and parser collaborators (`compare_locales`) are out of scope
per the spec; their observable outputs are the inputs of the embedding:
each `(l10n_file, reference_file)` pair is a `FilePair` recording whether
the two files exist, whether `parser.getParser` succeeds, the relative
path `key_path = os.path.relpath(reference_file, basedir)`, and the parsed
`(key, raw_val)` entity lists of the reference and localized files.
-/

namespace NimbusExtract

/-! ## Python dict operations on association lists -/

/-- Python `d[k]` as an `Option`: the value of the binding of `k`, if any. -/
def dget {α : Type} : List (String × α) → String → Option α
  | [], _ => none
  | p :: d, k => if p.1 == k then some p.2 else dget d k

/-- Lookup with a default value (used where the dict is known to hold `k`,
or where Python's `defaultdict` would supply the default). -/
def dgetD {α : Type} (d : List (String × α)) (k : String) (v : α) : α :=
  (dget d k).getD v

/-- Python `k in d`. -/
def dmem {α : Type} (d : List (String × α)) (k : String) : Bool :=
  (dget d k).isSome

/-- Python `d[k] = v`: replace in place if `k` is bound, else append. -/
def dset {α : Type} (d : List (String × α)) (k : String) (v : α) :
    List (String × α) :=
  if dmem d k then d.map (fun p => if p.1 == k then (k, v) else p)
  else d ++ [(k, v)]

/-- Python `d.update(pairs)`: sequential assignments, in order. -/
def dupdate {α : Type} (d : List (String × α)) (kvs : List (String × α)) :
    List (String × α) :=
  kvs.foldl (fun d kv => dset d kv.1 kv.2) d

/-- Python `del d[k]`. -/
def ddel {α : Type} (d : List (String × α)) (k : String) : List (String × α) :=
  d.filter (fun p => p.1 != k)

/-- Python `list(d.keys())`. -/
def dkeys {α : Type} (d : List (String × α)) : List String :=
  d.map (fun p => p.1)

/-- Python `defaultdict` lookup: return the binding of `k`, inserting an
empty binding at the end of the dict when `k` is missing.  Returns the
value together with the (possibly extended) dict. -/
def ddGet {α : Type} (dflt : α) (d : List (String × α)) (k : String) :
    α × List (String × α) :=
  match dget d k with
  | some v => (v, d)
  | none => (dflt, d ++ [(k, dflt)])

/-! ## Path helpers

`experiment_id = os.path.basename(os.path.splitext(key_path)[0])`.
`os.path.splitext` (POSIX): split at the last `.`, provided it comes after
the last `/` and some non-dot character precedes it within the basename.
`os.path.basename`: everything after the last `/`. -/

/-- Index of the last occurrence of `c` in `s`, if any. -/
def lastIdx (c : Char) (s : List Char) : Option Nat :=
  (List.range s.length).foldl
    (fun acc i => if s.get? i = some c then some i else acc) none

/-- `os.path.basename`, on character lists. -/
def basenameChars (s : List Char) : List Char :=
  match lastIdx '/' s with
  | none => s
  | some i => s.drop (i + 1)

/-- The root part (`[0]`) of `os.path.splitext`, on character lists. -/
def splitextRootChars (s : List Char) : List Char :=
  let sepIdx : Int := match lastIdx '/' s with | none => -1 | some i => (i : Int)
  let dotIdx : Int := match lastIdx '.' s with | none => -1 | some i => (i : Int)
  if sepIdx < dotIdx then
    if ((s.drop (sepIdx + 1).toNat).take (dotIdx - sepIdx - 1).toNat).any
        (fun ch => ch ≠ '.') then
      s.take dotIdx.toNat
    else s
  else s

/-- `experiment_id = os.path.basename(os.path.splitext(key_path)[0])`. -/
def expIdOf (keyPath : String) : String :=
  ⟨basenameChars (splitextRootChars keyPath.data)⟩

/-! ## Extraction pass (`StringExtraction.extractStrings`) -/

/-- One `(l10n_file, reference_file, _, _)` tuple yielded by
`paths.ProjectFiles(locale, [project_config])`, together with the
observable behaviour of the out-of-scope collaborators on it:

* `l10nExists` / `refExists`: `os.path.exists` of the two paths;
* `keyPath`: `os.path.relpath(reference_file, basedir)`;
* `parserOk`: whether `parser.getParser(reference_file)` succeeds
  (it raises `UserWarning` on an unsupported format);
* `refEntities` / `l10nEntities`: the `(entity.key, entity.raw_val)` lists
  produced by parsing the reference file and the localized file. -/
structure FilePair where
  l10nExists : Bool
  refExists : Bool
  keyPath : String
  parserOk : Bool
  refEntities : List (String × String)
  l10nEntities : List (String × String)
deriving Repr, DecidableEq

/-- A locale's translation dict: composite key → raw value. -/
abbrev LocaleTable := List (String × String)

/-- `self.translations`: locale → locale table. -/
abbrev Table := List (String × LocaleTable)

/-- The extraction input: `project_config.all_locales` in order, each locale
paired with the list of file pairs `paths.ProjectFiles` yields for it. -/
abbrev ExtractInput := List (String × List FilePair)

/-- Mutable state of `extractStrings`: `self.translations` plus
`reference_cache`.  The cached *values* (`set(p.parse().keys())`) are never
read by the script — only `key_path not in reference_cache` is — so the
cache is modelled by its key list. -/
structure ExtractState where
  translations : Table
  refCache : List String
deriving Repr, DecidableEq

/-- `f"{experiment_id}:{entity.key}"` applied to a list of entities. -/
def compositeEntries (eid : String) (es : List (String × String)) :
    List (String × String) :=
  es.map (fun e => (eid ++ ":" ++ e.1, e.2))

/-- `self.translations[locale].update(kvs)` (with the `defaultdict`
creating the locale's dict when missing). -/
def updateLocale (tr : Table) (locale : String) (kvs : List (String × String)) :
    Table :=
  let p := ddGet [] tr locale
  dset p.2 locale (dupdate p.1 kvs)

/-- Body of the inner `for l10n_file, reference_file, _, _ in files:` loop
(lines 48–81 of the script). -/
def processPair (ref locale : String) (st : ExtractState) (fp : FilePair) :
    ExtractState :=
  if fp.l10nExists && fp.refExists && fp.parserOk then
    let eid := expIdOf fp.keyPath
    let st :=
      if st.refCache.contains fp.keyPath then st
      else
        { refCache := st.refCache ++ [fp.keyPath]
          translations :=
            updateLocale st.translations ref (compositeEntries eid fp.refEntities) }
    { st with
      translations :=
        updateLocale st.translations locale (compositeEntries eid fp.l10nEntities) }
  else st

/-- Lines 84–89: for a non-reference locale, rebuild its dict keeping only
keys present in the reference locale's dict.  The comprehension first reads
`self.translations[locale]` (a `defaultdict` access, creating the entry when
missing); the membership test reads `self.translations[self.reference_locale]`
once any item exists (creating an empty reference entry when missing); the
assignment then replaces the locale's value in place. -/
def filterLocale (ref locale : String) (tr : Table) : Table :=
  let p := ddGet [] tr locale
  let tr := if p.1.isEmpty then p.2 else (ddGet [] p.2 ref).2
  let rtab := dgetD tr ref []
  dset tr locale (p.1.filter (fun kv => dmem rtab kv.1))

/-- Body of the outer `for locale in project_config.all_locales:` loop:
process the locale's file pairs, filter against the reference locale
(non-reference locales only), and perform the `defaultdict` access of
line 90 (`len(self.translations[locale])`). -/
def processLocale (ref : String) (st : ExtractState)
    (lp : String × List FilePair) : ExtractState :=
  let st := lp.2.foldl (fun s fp => processPair ref lp.1 s fp) st
  let tr := if lp.1 == ref then st.translations
            else filterLocale ref lp.1 st.translations
  { st with translations := (ddGet [] tr lp.1).2 }

/-- `StringExtraction.extractStrings`: fold the per-locale processing over
`all_locales`, starting from an empty table and an empty reference cache. -/
def extractStrings (ref : String) (input : ExtractInput) : Table :=
  (input.foldl (fun st lp => processLocale ref st lp) ⟨[], []⟩).translations

/-! ## Reshape-and-filter pass (`StringExtraction.getTranslations`) -/

/-- Python `full_id.split(":")` on character lists: split at every
occurrence of the separator. -/
def splitChar (c : Char) : List Char → List (List Char)
  | [] => [[]]
  | x :: xs =>
    match splitChar c xs with
    | [] => [[]]
    | h :: t => if x = c then [] :: h :: t else (x :: h) :: t

/-- Python `full_id.split(":")`: `"a:b:c".split(":") == ["a","b","c"]`,
`"ab".split(":") == ["ab"]`. -/
def pySplitColon (s : String) : List String :=
  (splitChar ':' s.data).map (fun l => ⟨l⟩)

/-- One experiment's output record:
`{"translations": defaultdict(dict), "complete_locales": []}`. -/
structure ExpData where
  translations : Table
  complete_locales : List String
deriving Repr, DecidableEq

def emptyExp : ExpData := ⟨[], []⟩

/-- The flattened iteration
`for locale, messages in self.translations.items(): for full_id, translation
in messages.items():` as a list of `(locale, full_id, translation)`. -/
def triples (tbl : Table) : List (String × String × String) :=
  (tbl.map (fun lm => lm.2.map (fun kv => (lm.1, kv.1, kv.2)))).flatten

/-- Lines 97–106 for one `(locale, full_id, translation)`:
`experiment_id, message_id = full_id.split(":")` raises `ValueError` unless
the split has exactly two parts (modelled by `Except.error ()`); then the
experiment's record is created if missing and
`json_output[experiment_id]["translations"][locale][message_id] = translation`
is performed. -/
def insertGood (out : List (String × ExpData)) (locale eid mid v : String) :
    List (String × ExpData) :=
  let out := if dmem out eid then out else out ++ [(eid, emptyExp)]
  out.map (fun p =>
    if p.1 == eid then
      (p.1, { p.2 with
              translations := updateLocale p.2.translations locale [(mid, v)] })
    else p)

def insertTriple (out : List (String × ExpData)) (t : String × String × String) :
    Except Unit (List (String × ExpData)) :=
  match pySplitColon t.2.1 with
  | [eid, mid] => .ok (insertGood out t.1 eid mid t.2.2)
  | _ => .error ()

/-- The first loop of `getTranslations` (lines 95–106): iterate the
flattened triples, aborting at the first `ValueError` from the unpacking
`experiment_id, message_id = full_id.split(":")`. -/
def buildGo : List (String × String × String) → List (String × ExpData) →
    Except Unit (List (String × ExpData))
  | [], acc => .ok acc
  | t :: ts, acc =>
    match insertTriple acc t with
    | .error e => .error e
    | .ok acc' => buildGo ts acc'

def buildOutput (tbl : Table) : Except Unit (List (String × ExpData)) :=
  buildGo (triples tbl) []

/-- `len(set(reference_ids) - set(l10n_ids)) == 0`. -/
def supersetCond (refIds l10nIds : List String) : Bool :=
  refIds.all (fun i => l10nIds.contains i)

/-- A kernel-reducible decision procedure for `String ≤` (the Mathlib
order, which is code-point lexicographic — the same order Python uses to
compare strings). -/
def decLeStr (a b : String) : Decidable (a ≤ b) :=
  decidable_of_iff (¬ b.data < a.data) (Iff.symm (not_congr String.lt_iff_toList_lt))

/-- Ascending sort (`list.sort()`): Python sorts strings lexicographically
by code point, which is exactly `String ≤`; `complete_locales` and `locales`
are duplicate-free, so stability is not observable. -/
def sortStr (l : List String) : List String :=
  @List.insertionSort String (fun a b => a ≤ b) (fun a b => decLeStr a b) l

/-- An enumeration of the elements of a finite set of strings, as Python's
`list(set(...))` produces: some duplicate-free list with exactly the
elements of the input.  The iteration order of a Python `set` is
unspecified (it varies with `PYTHONHASHSEED`), so `getTranslations` is
parametrised by the enumeration function; `List.dedup` (first-occurrence
order) is the canonical instance used by the un-parametrised definitions. -/
def SetEnum (σ : List String → List String) : Prop :=
  ∀ xs : List String, (σ xs).Nodup ∧ ∀ a, a ∈ σ xs ↔ a ∈ xs

/-- The body of the second loop of `getTranslations` (lines 111–132) for one
experiment, parametrised by the set-enumeration `σ`.  Returns the updated
record and whether the experiment was appended to `partial_experiments`.

Line-by-line: `locales = sorted keys`; `reference_ids = list(
exp_data["translations"][ref].keys())` is a `defaultdict` access (may append
an empty reference binding); the completeness loop reads
`exp_data["translations"][l]` for `l ∈ locales` (all bound, so plain lookup);
`complete_locales` is extended then sorted; incomplete locales are deleted;
finally `list(set(locales) - set(incomplete_locales)) == [ref]` — a list
built from a set equals the one-element list `[ref]` exactly when the set is
`{ref}`, independent of enumeration order. -/
def processExpWith (σ : List String → List String) (ref : String)
    (ed : ExpData) : ExpData × Bool :=
  let locales := sortStr (dkeys ed.translations)
  let p := ddGet [] ed.translations ref
  let referenceIds := dkeys p.1
  let tr := p.2
  let cl := locales.foldl
    (fun (acc : List String × List String) l =>
      let l10nIds := dkeys (dgetD tr l [])
      if supersetCond referenceIds l10nIds then (acc.1 ++ [l], acc.2)
      else (acc.1, acc.2 ++ [l]))
    (ed.complete_locales, [])
  let completeSorted := sortStr cl.1
  let tr := cl.2.foldl (fun t l => ddel t l) tr
  let isPartial := σ (locales.filter (fun l => !cl.2.contains l)) == [ref]
  ({ translations := tr, complete_locales := completeSorted }, isPartial)

/-- The second half of `getTranslations` (lines 110–136): process every
experiment in `json_output` order, collect `partial_experiments`, then
delete them. -/
def finalize (σ : List String → List String) (ref : String)
    (mid : List (String × ExpData)) : List (String × ExpData) :=
  let processed := mid.map (fun p => (p.1, processExpWith σ ref p.2))
  let partials := (processed.filter (fun p => p.2.2)).map (fun p => p.1)
  let final := processed.map (fun p => (p.1, p.2.1))
  partials.foldl (fun o e => ddel o e) final

/-- `StringExtraction.getTranslations`, parametrised by the set
enumeration: build `json_output`, process every experiment, then delete the
`partial_experiments`. -/
def getTranslationsWith (σ : List String → List String) (ref : String)
    (tbl : Table) : Except Unit (List (String × ExpData)) :=
  match buildOutput tbl with
  | .error e => .error e
  | .ok out => .ok (finalize σ ref out)

def processExp (ref : String) (ed : ExpData) : ExpData × Bool :=
  processExpWith (fun xs => xs.dedup) ref ed

def getTranslations (ref : String) (tbl : Table) :
    Except Unit (List (String × ExpData)) :=
  getTranslationsWith (fun xs => xs.dedup) ref tbl

/-! ## Lemmas about the dict operations -/

section DictLemmas

variable {α : Type}

theorem dget_cons (p : String × α) (d : List (String × α)) (k : String) :
    dget (p :: d) k = if p.1 = k then some p.2 else dget d k := by
  simp [dget]

theorem dget_append (d₁ d₂ : List (String × α)) (k : String) :
    dget (d₁ ++ d₂) k = (dget d₁ k).or (dget d₂ k) := by
  induction d₁ with
  | nil => simp [dget]
  | cons p d ih =>
    by_cases h : p.1 = k <;> simp [dget_cons, h, ih]

theorem dmem_iff (d : List (String × α)) (k : String) :
    dmem d k = true ↔ ∃ v, dget d k = some v := by
  simp [dmem, Option.isSome_iff_exists]

theorem dmem_eq_false (d : List (String × α)) (k : String) :
    dmem d k = false ↔ dget d k = none := by
  simp only [dmem]
  cases dget d k <;> simp

theorem dget_mapReplace (d : List (String × α)) (k : String) (v : α)
    (k' : String) :
    dget (d.map (fun p => if p.1 == k then (k, v) else p)) k' =
      if k' = k then (dget d k).map (fun _ => v) else dget d k' := by
  induction d with
  | nil => simp [dget]
  | cons p d ih =>
    rw [List.map_cons]
    by_cases h1 : p.1 = k
    · have hh : (if p.1 == k then (k, v) else p) = (k, v) := by simp [h1]
      rw [hh]
      simp only [dget_cons, ih]
      by_cases h2 : k' = k
      · subst h2
        simp [h1]
      · have h3 : ¬ k = k' := fun he => h2 he.symm
        simp [h1, h2, h3]
    · have hh : (if p.1 == k then (k, v) else p) = p := by simp [h1]
      rw [hh]
      simp only [dget_cons, ih]
      by_cases h2 : p.1 = k'
      · have hne : ¬ k' = k := fun he => h1 (h2.trans he)
        simp [h1, h2, hne]
      · simp [h1, h2]

theorem dget_dset (d : List (String × α)) (k : String) (v : α) (k' : String) :
    dget (dset d k v) k' = if k' = k then some v else dget d k' := by
  unfold dset
  by_cases hm : dmem d k
  · rcases (dmem_iff d k).mp hm with ⟨w, hw⟩
    simp only [hm, if_true, dget_mapReplace]
    by_cases h2 : k' = k <;> simp [h2, hw]
  · have hnone : dget d k = none := by
      rw [← dmem_eq_false]
      exact Bool.not_eq_true _ ▸ hm
    rw [if_neg hm, dget_append]
    by_cases h2 : k' = k
    · subst h2
      simp [dget_cons, hnone]
    · have h3 : ¬ k = k' := fun he => h2 he.symm
      simp [dget_cons, dget, h2, h3]

theorem dget_ddel (d : List (String × α)) (k k' : String) :
    dget (ddel d k) k' = if k' = k then none else dget d k' := by
  induction d with
  | nil => simp [ddel, dget]
  | cons p d ih =>
    unfold ddel at ih ⊢
    by_cases h1 : p.1 = k
    · have hf : (p.1 != k) = false := by simp [h1]
      rw [List.filter_cons, hf]
      simp only [Bool.false_eq_true, if_false]
      rw [ih, dget_cons]
      by_cases h2 : k' = k
      · simp [h2]
      · have h3 : ¬ p.1 = k' := fun he => h2 (he.symm.trans h1)
        simp [h2, h3]
    · have hf : (p.1 != k) = true := by simp [h1]
      rw [List.filter_cons, hf]
      simp only [if_true]
      rw [dget_cons, dget_cons, ih]
      by_cases h2 : p.1 = k'
      · have hne : ¬ k' = k := fun he => h1 (h2.trans he)
        simp [h2, hne]
      · simp [h2]

theorem dkeys_mem_iff (d : List (String × α)) (k : String) :
    k ∈ dkeys d ↔ ∃ v, dget d k = some v := by
  induction d with
  | nil => simp [dkeys, dget]
  | cons p d ih =>
    by_cases h : p.1 = k <;> simp_all [dkeys, dget_cons]
    exact fun h' => (h h'.symm).elim

theorem dkeys_mem_iff_dmem (d : List (String × α)) (k : String) :
    k ∈ dkeys d ↔ dmem d k = true := by
  rw [dkeys_mem_iff, dmem_iff]

theorem dget_eq_of_mem_nodup (d : List (String × α)) (k : String) (v : α)
    (hnd : (dkeys d).Nodup) (hmem : (k, v) ∈ d) : dget d k = some v := by
  induction d with
  | nil => simp at hmem
  | cons p d ih =>
    simp only [dkeys, List.map_cons, List.nodup_cons] at hnd
    rcases List.mem_cons.mp hmem with h | h
    · simp [dget_cons, ← h]
    · have hk : k ∈ dkeys d := by
        simp only [dkeys, List.mem_map]
        exact ⟨(k, v), h, rfl⟩
      have hne : p.1 ≠ k := fun he => hnd.1 (he ▸ hk)
      simp [dget_cons, hne, ih hnd.2 h]

theorem mem_of_dget_eq (d : List (String × α)) (k : String) (v : α)
    (h : dget d k = some v) : (k, v) ∈ d := by
  induction d with
  | nil => simp [dget] at h
  | cons p d ih =>
    rw [dget_cons] at h
    by_cases h1 : p.1 = k
    · rw [if_pos h1, Option.some.injEq] at h
      exact List.mem_cons.mpr (Or.inl (by cases p; simp_all))
    · rw [if_neg h1] at h
      exact List.mem_cons_of_mem _ (ih h)

/-- The last-bound value in an update list. -/
def lastVal (kvs : List (String × α)) (k : String) : Option α :=
  kvs.reverse.findSome? (fun kv => if kv.1 == k then some kv.2 else none)

theorem lastVal_append (kvs₁ kvs₂ : List (String × α)) (k : String) :
    lastVal (kvs₁ ++ kvs₂) k = (lastVal kvs₂ k).or (lastVal kvs₁ k) := by
  simp [lastVal, List.reverse_append, List.findSome?_append]

theorem lastVal_cons (kv : String × α) (kvs : List (String × α)) (k : String) :
    lastVal (kv :: kvs) k =
      (lastVal kvs k).or (if kv.1 = k then some kv.2 else none) := by
  have h : kv :: kvs = [kv] ++ kvs := rfl
  rw [h, lastVal_append]
  by_cases hkv : kv.1 = k <;> simp [lastVal, List.findSome?, hkv]

theorem dget_dupdate (d : List (String × α)) (kvs : List (String × α))
    (k : String) :
    dget (dupdate d kvs) k = (lastVal kvs k).or (dget d k) := by
  induction kvs generalizing d with
  | nil => simp [dupdate, lastVal]
  | cons kv kvs ih =>
    have h : dupdate d (kv :: kvs) = dupdate (dset d kv.1 kv.2) kvs := by
      simp [dupdate]
    rw [h, ih, dget_dset, lastVal_cons]
    by_cases h1 : k = kv.1
    · subst h1
      cases hv : lastVal kvs kv.1 <;> simp [hv]
    · have h2 : ¬ kv.1 = k := fun he => h1 he.symm
      cases hv : lastVal kvs k <;> simp [h1, h2, hv]

theorem ddGet_fst {dflt : α} (d : List (String × α)) (k : String) :
    (ddGet dflt d k).1 = dgetD d k dflt := by
  unfold ddGet dgetD
  cases h : dget d k <;> simp

theorem dget_ddGet {dflt : α} (d : List (String × α)) (k k' : String) :
    dget (ddGet dflt d k).2 k' =
      if k' = k then some (dgetD d k dflt) else dget d k' := by
  unfold ddGet dgetD
  cases h : dget d k with
  | some v =>
    by_cases h2 : k' = k <;> simp [h2, h]
  | none =>
    by_cases h2 : k' = k
    · subst h2
      simp [h, dget_append, dget_cons, dget]
    · have h3 : ¬ k = k' := fun he => h2 he.symm
      simp [h2, h3, h, dget_append, dget_cons, dget]

theorem ddGet_of_dmem {dflt : α} (d : List (String × α)) (k : String)
    (h : dmem d k = true) : (ddGet dflt d k).2 = d := by
  unfold ddGet
  rcases (dmem_iff d k).mp h with ⟨v, hv⟩
  simp [hv]

theorem dget_filterKeys (d : List (String × α)) (p : String → Bool)
    (k : String) :
    dget (d.filter (fun kv => p kv.1)) k =
      if p k then dget d k else none := by
  induction d with
  | nil => simp [dget]
  | cons q d ih =>
    by_cases h1 : q.1 = k
    · subst h1
      by_cases h2 : p q.1 <;> simp [List.filter_cons, dget_cons, h2, ih]
    · by_cases h2 : p q.1 <;> simp [List.filter_cons, dget_cons, h1, h2, ih]

end DictLemmas

/-! ## Lemmas about the extraction pass -/

/-- `k` is a key of locale `l`'s dict in the table. -/
def hasKey (tbl : Table) (l k : String) : Prop :=
  k ∈ dkeys (dgetD tbl l [])

theorem hasKey_iff (tbl : Table) (l k : String) :
    hasKey tbl l k ↔ ∃ d v, dget tbl l = some d ∧ dget d k = some v := by
  unfold hasKey dgetD
  cases h : dget tbl l with
  | none => simp [dkeys, dget]
  | some d => simp [dkeys_mem_iff]

theorem dget_updateLocale (tr : Table) (l : String)
    (kvs : List (String × String)) (l' : String) :
    dget (updateLocale tr l kvs) l' =
      if l' = l then some (dupdate (dgetD tr l []) kvs) else dget tr l' := by
  unfold updateLocale
  rw [dget_dset]
  by_cases h : l' = l
  · simp only [h, if_true]
    congr 1
    exact congrArg (fun x => dupdate x kvs) (ddGet_fst tr l)
  · simp only [h, if_false]
    rw [dget_ddGet]
    simp [h]

theorem lastVal_eq_none_iff {α : Type} (kvs : List (String × α)) (k : String) :
    lastVal kvs k = none ↔ ∀ kv ∈ kvs, kv.1 ≠ k := by
  induction kvs with
  | nil => simp [lastVal]
  | cons kv kvs ih =>
    rw [lastVal_cons]
    cases hv : lastVal kvs k with
    | some w =>
      rw [Option.or_some]
      constructor
      · intro h
        exact Option.noConfusion h
      · intro h
        have h2 := ih.mpr (fun kv' h' => h kv' (List.mem_cons_of_mem _ h'))
        rw [hv] at h2
        exact Option.noConfusion h2
    | none =>
      rw [Option.none_or]
      by_cases h : kv.1 = k
      · rw [if_pos h]
        constructor
        · intro hcon
          exact Option.noConfusion hcon
        · intro hall
          exact absurd h (hall kv (List.mem_cons_self kv kvs))
      · rw [if_neg h]
        constructor
        · intro _ kv' h'
          rcases List.mem_cons.mp h' with he | hm
          · rw [he]
            exact h
          · exact ih.mp hv kv' hm
        · intro _
          rfl

theorem dkeys_dupdate_mono (d : List (String × α)) (kvs : List (String × α))
    (k : String) (h : k ∈ dkeys d) : k ∈ dkeys (dupdate d kvs) := by
  rcases (dkeys_mem_iff d k).mp h with ⟨v, hv⟩
  rw [dkeys_mem_iff, dget_dupdate]
  cases hl : lastVal kvs k <;> simp [hv]

theorem dkeys_dupdate_iff (d : List (String × α)) (kvs : List (String × α))
    (k : String) :
    k ∈ dkeys (dupdate d kvs) ↔ k ∈ kvs.map (fun kv => kv.1) ∨ k ∈ dkeys d := by
  rw [dkeys_mem_iff, dkeys_mem_iff]
  constructor
  · rintro ⟨v, hv⟩
    rw [dget_dupdate] at hv
    cases hl : lastVal kvs k with
    | none =>
      right
      rw [hl] at hv
      exact ⟨v, by simpa using hv⟩
    | some w =>
      left
      by_contra hk
      have : ∀ kv ∈ kvs, kv.1 ≠ k := by
        intro kv hkv he
        exact hk (List.mem_map.mpr ⟨kv, hkv, he⟩)
      rw [(lastVal_eq_none_iff kvs k).mpr this] at hl
      exact Option.noConfusion hl
  · intro h
    rcases h with h | h
    · rcases List.mem_map.mp h with ⟨kv, hkv, he⟩
      cases hv : dget (dupdate d kvs) k with
      | some v => exact ⟨v, rfl⟩
      | none =>
        rw [dget_dupdate] at hv
        cases hl : lastVal kvs k with
        | some w => simp [hl] at hv
        | none =>
          exact absurd he ((lastVal_eq_none_iff kvs k).mp hl kv hkv)
    · rcases h with ⟨v, hv⟩
      rw [dget_dupdate]
      cases hl : lastVal kvs k <;> simp [hv]

theorem dgetD_ddGet {α : Type} (dflt : α) (d : List (String × α))
    (k k' : String) :
    dgetD (ddGet dflt d k).2 k' dflt =
      if k' = k then dgetD d k dflt else dgetD d k' dflt := by
  unfold dgetD
  rw [dget_ddGet]
  by_cases h : k' = k <;> simp [h, dgetD]

theorem hasKey_updateLocale_iff (tr : Table) (l : String)
    (kvs : List (String × String)) (l' k : String) :
    hasKey (updateLocale tr l kvs) l' k ↔
      (if l' = l then k ∈ kvs.map (fun kv => kv.1) ∨ hasKey tr l k
       else hasKey tr l' k) := by
  unfold hasKey dgetD
  rw [dget_updateLocale]
  by_cases h : l' = l
  · simp only [h, if_true, Option.getD_some]
    rw [dkeys_dupdate_iff]
    unfold dgetD
    exact Iff.rfl
  · simp [h]

theorem hasKey_updateLocale_mono (tr : Table) (l : String)
    (kvs : List (String × String)) (l' k : String)
    (h : hasKey tr l' k) : hasKey (updateLocale tr l kvs) l' k := by
  rw [hasKey_updateLocale_iff]
  by_cases he : l' = l
  · subst he
    simp [h]
  · simp [he, h]

theorem dget_processPair_other (ref locale : String) (st : ExtractState)
    (fp : FilePair) (l' : String) (h1 : l' ≠ locale) (h2 : l' ≠ ref) :
    dget (processPair ref locale st fp).translations l' =
      dget st.translations l' := by
  unfold processPair
  by_cases hc : (fp.l10nExists && fp.refExists && fp.parserOk) = true
  · rw [if_pos hc]
    dsimp only
    by_cases hcache : st.refCache.contains fp.keyPath = true
    · rw [if_pos hcache]
      show dget (updateLocale st.translations locale _) l' = _
      rw [dget_updateLocale, if_neg h1]
    · rw [if_neg hcache]
      show dget (updateLocale (updateLocale st.translations ref _) locale _) l' = _
      rw [dget_updateLocale, if_neg h1, dget_updateLocale, if_neg h2]
  · rw [if_neg hc]

theorem hasKey_processPair_mono (ref locale : String) (st : ExtractState)
    (fp : FilePair) (l' k : String) (h : hasKey st.translations l' k) :
    hasKey (processPair ref locale st fp).translations l' k := by
  unfold processPair
  by_cases hc : (fp.l10nExists && fp.refExists && fp.parserOk) = true
  · rw [if_pos hc]
    dsimp only
    by_cases hcache : st.refCache.contains fp.keyPath = true
    · rw [if_pos hcache]
      exact hasKey_updateLocale_mono _ _ _ _ _ h
    · rw [if_neg hcache]
      exact hasKey_updateLocale_mono _ _ _ _ _
        (hasKey_updateLocale_mono _ _ _ _ _ h)
  · rw [if_neg hc]
    exact h

theorem hasKey_foldPairs_mono (ref locale : String) (st : ExtractState)
    (pairs : List FilePair) (l' k : String)
    (h : hasKey st.translations l' k) :
    hasKey (pairs.foldl (fun s fp => processPair ref locale s fp) st).translations
      l' k := by
  induction pairs generalizing st with
  | nil => exact h
  | cons fp pairs ih =>
    exact ih _ (hasKey_processPair_mono ref locale st fp l' k h)

theorem dget_foldPairs_other (ref locale : String) (st : ExtractState)
    (pairs : List FilePair) (l' : String) (h1 : l' ≠ locale) (h2 : l' ≠ ref) :
    dget (pairs.foldl (fun s fp => processPair ref locale s fp) st).translations
        l' = dget st.translations l' := by
  induction pairs generalizing st with
  | nil => rfl
  | cons fp pairs ih =>
    rw [List.foldl_cons, ih _]
    exact dget_processPair_other ref locale st fp l' h1 h2

theorem dget_filterLocale_other (ref locale : String) (tr : Table)
    (l' : String) (h1 : l' ≠ locale) (h2 : l' ≠ ref) :
    dget (filterLocale ref locale tr) l' = dget tr l' := by
  unfold filterLocale
  rw [dget_dset, if_neg h1]
  by_cases he : (ddGet ([] : LocaleTable) tr locale).1.isEmpty = true
  · rw [if_pos he, dget_ddGet, if_neg h1]
  · rw [if_neg he, dget_ddGet, if_neg h2, dget_ddGet, if_neg h1]

/-- The reference locale's dict (as seen through the `defaultdict`) is not
changed by the per-locale filtering of another locale. -/
theorem dgetD_filterLocale_ref (ref locale : String) (tr : Table)
    (hne : locale ≠ ref) :
    dgetD (filterLocale ref locale tr) ref [] = dgetD tr ref [] := by
  have hrl : ¬ ref = locale := fun he => hne he.symm
  unfold filterLocale
  show dgetD (dset _ locale _) ref [] = _
  unfold dgetD
  rw [dget_dset, if_neg hrl]
  by_cases he : (ddGet ([] : LocaleTable) tr locale).1.isEmpty = true
  · rw [if_pos he, dget_ddGet, if_neg hrl]
  · rw [if_neg he, dget_ddGet, if_pos rfl, Option.getD_some, dgetD_ddGet, if_neg hrl]
    rfl

theorem hasKey_filterLocale_ref (ref locale : String) (tr : Table) (k : String)
    (hne : locale ≠ ref) :
    hasKey (filterLocale ref locale tr) ref k ↔ hasKey tr ref k := by
  unfold hasKey
  rw [dgetD_filterLocale_ref ref locale tr hne]

theorem dget_filterLocale_self (ref locale : String) (tr : Table)
    (hne : locale ≠ ref) :
    dget (filterLocale ref locale tr) locale =
      some ((dgetD tr locale []).filter
        (fun kv => dmem (dgetD tr ref []) kv.1)) := by
  have hrl : ¬ ref = locale := fun he => hne he.symm
  unfold filterLocale
  rw [dget_dset, if_pos rfl]
  by_cases he : (ddGet ([] : LocaleTable) tr locale).1.isEmpty = true
  · rw [if_pos he]
    have h0 : (ddGet ([] : LocaleTable) tr locale).1 = [] := by
      rw [List.isEmpty_iff] at he
      exact he
    have h1 : dgetD tr locale [] = [] := by
      rw [← ddGet_fst tr locale, h0]
    rw [h0, h1]
    simp [List.filter_nil]
  · rw [if_neg he]
    have h1 : (ddGet ([] : LocaleTable) tr locale).1 = dgetD tr locale [] :=
      ddGet_fst tr locale
    have h2 : dgetD (ddGet ([] : LocaleTable)
        ((ddGet ([] : LocaleTable) tr locale).2) ref).2 ref [] =
        dgetD tr ref [] := by
      rw [dgetD_ddGet, if_pos rfl, dgetD_ddGet, if_neg hrl]
    rw [h1, h2]

theorem hasKey_congr (t₁ t₂ : Table) (l k : String)
    (h : dget t₁ l = dget t₂ l) : hasKey t₁ l k ↔ hasKey t₂ l k := by
  unfold hasKey dgetD
  rw [h]

theorem hasKey_ddGet (tr : Table) (l l' k : String) :
    hasKey (ddGet [] tr l).2 l' k ↔ hasKey tr l' k := by
  unfold hasKey
  rw [dgetD_ddGet]
  by_cases h : l' = l
  · rw [if_pos h, h]
  · rw [if_neg h]

theorem dkeys_filterKeys (d : List (String × α)) (p : String → Bool)
    (k : String) :
    k ∈ dkeys (d.filter (fun kv => p kv.1)) ↔ p k = true ∧ k ∈ dkeys d := by
  rw [dkeys_mem_iff, dkeys_mem_iff]
  constructor
  · rintro ⟨v, hv⟩
    rw [dget_filterKeys] at hv
    by_cases hp : p k = true
    · rw [if_pos hp] at hv
      exact ⟨hp, v, hv⟩
    · rw [if_neg hp] at hv
      exact Option.noConfusion hv
  · rintro ⟨hp, v, hv⟩
    exact ⟨v, by rw [dget_filterKeys, if_pos hp]; exact hv⟩

theorem hasKey_filterLocale_self_iff (ref locale : String) (tr : Table)
    (k : String) (hne : locale ≠ ref) :
    hasKey (filterLocale ref locale tr) locale k ↔
      hasKey tr locale k ∧ hasKey tr ref k := by
  unfold hasKey
  have h1 : dgetD (filterLocale ref locale tr) locale [] =
      (dgetD tr locale []).filter (fun kv => dmem (dgetD tr ref []) kv.1) := by
    unfold dgetD
    rw [dget_filterLocale_self ref locale tr hne]
    rfl
  rw [h1, dkeys_filterKeys, ← dkeys_mem_iff_dmem]
  exact and_comm

theorem hasKey_processLocale (ref : String) (st : ExtractState)
    (lp : String × List FilePair) (l' k : String) (h1 : l' ≠ lp.1)
    (h2 : l' ≠ ref) :
    hasKey (processLocale ref st lp).translations l' k ↔
      hasKey st.translations l' k := by
  unfold processLocale
  dsimp only
  rw [hasKey_ddGet]
  by_cases hr : (lp.1 == ref) = true
  · rw [if_pos hr]
    exact hasKey_congr _ _ _ _ (dget_foldPairs_other ref lp.1 st lp.2 l' h1 h2)
  · rw [if_neg hr]
    refine (hasKey_congr _ _ _ _
      (dget_filterLocale_other ref lp.1 _ l' h1 h2)).trans ?_
    exact hasKey_congr _ _ _ _ (dget_foldPairs_other ref lp.1 st lp.2 l' h1 h2)

theorem hasKey_processLocale_ref_mono (ref : String) (st : ExtractState)
    (lp : String × List FilePair) (k : String)
    (h : hasKey st.translations ref k) :
    hasKey (processLocale ref st lp).translations ref k := by
  unfold processLocale
  dsimp only
  rw [hasKey_ddGet]
  have hst : hasKey (lp.2.foldl (fun s fp => processPair ref lp.1 s fp)
      st).translations ref k :=
    hasKey_foldPairs_mono ref lp.1 st lp.2 ref k h
  by_cases hr : (lp.1 == ref) = true
  · rw [if_pos hr]
    exact hst
  · rw [if_neg hr]
    have hne : lp.1 ≠ ref := by
      intro he
      exact hr (by simp [he])
    exact (hasKey_filterLocale_ref ref lp.1 _ k hne).mpr hst

/-- The invariant of claim C3: every composite key of a non-reference
locale's dict is also a key of the reference locale's dict. -/
def RefInv (ref : String) (tbl : Table) : Prop :=
  ∀ l, l ≠ ref → ∀ k, hasKey tbl l k → hasKey tbl ref k

theorem refInv_processLocale (ref : String) (st : ExtractState)
    (lp : String × List FilePair) (h : RefInv ref st.translations) :
    RefInv ref (processLocale ref st lp).translations := by
  obtain ⟨l0, pairs⟩ := lp
  intro l hl k hk
  by_cases hll : l = l0
  · -- the locale just processed
    cases hll
    revert hk
    unfold processLocale
    dsimp only
    rw [hasKey_ddGet, hasKey_ddGet]
    by_cases hr : (l0 == ref) = true
    · intro _
      exact absurd (by simpa using hr) hl
    · rw [if_neg hr]
      intro hk
      have hrefk := (hasKey_filterLocale_self_iff ref l0 _ k hl).mp hk
      exact (hasKey_filterLocale_ref ref l0 _ k hl).mpr hrefk.2
  · -- an untouched locale
    have hk0 : hasKey st.translations l k :=
      (hasKey_processLocale ref st (l0, pairs) l k hll hl).mp hk
    exact hasKey_processLocale_ref_mono ref st (l0, pairs) k (h l hl k hk0)

theorem refInv_extract (ref : String) (input : ExtractInput) :
    RefInv ref (extractStrings ref input) := by
  unfold extractStrings
  have hgen : ∀ st : ExtractState, RefInv ref st.translations →
      RefInv ref (input.foldl (fun st lp => processLocale ref st lp)
        st).translations := by
    induction input with
    | nil => exact fun st h => h
    | cons lp input ih =>
      intro st h
      exact ih _ (refInv_processLocale ref st lp h)
  refine hgen _ ?_
  intro l _ k hk
  simp [hasKey, dgetD, dget, dkeys] at hk

/-! ## Well-formedness: tables have duplicate-free keys at both levels -/

def WFT (tbl : Table) : Prop :=
  (dkeys tbl).Nodup ∧ ∀ l d, dget tbl l = some d → (dkeys d).Nodup

theorem dkeys_mapReplace {α : Type} (d : List (String × α)) (k : String)
    (v : α) :
    dkeys (d.map (fun p => if p.1 == k then (k, v) else p)) = dkeys d := by
  unfold dkeys
  rw [List.map_map]
  apply List.map_congr_left
  intro p _
  by_cases h : p.1 = k <;> simp [h]

theorem nodup_dkeys_dset {α : Type} (d : List (String × α)) (k : String)
    (v : α) (h : (dkeys d).Nodup) : (dkeys (dset d k v)).Nodup := by
  unfold dset
  by_cases hm : dmem d k = true
  · rw [if_pos hm, dkeys_mapReplace]
    exact h
  · rw [if_neg hm]
    have hk : k ∉ dkeys d := by
      rw [dkeys_mem_iff_dmem]
      simp [hm]
    unfold dkeys
    rw [List.map_append]
    simp only [List.map_cons, List.map_nil]
    rw [List.nodup_append]
    refine ⟨h, List.nodup_singleton k, fun a ha hb => ?_⟩
    rw [List.mem_singleton] at hb
    exact hk (hb ▸ ha)

theorem nodup_dkeys_dupdate {α : Type} (d : List (String × α))
    (kvs : List (String × α)) (h : (dkeys d).Nodup) :
    (dkeys (dupdate d kvs)).Nodup := by
  induction kvs generalizing d with
  | nil => exact h
  | cons kv kvs ih =>
    have hstep : dupdate d (kv :: kvs) = dupdate (dset d kv.1 kv.2) kvs := by
      simp [dupdate]
    rw [hstep]
    exact ih _ (nodup_dkeys_dset d kv.1 kv.2 h)

theorem wft_dset_table (tr : Table) (l : String) (dnew : LocaleTable)
    (h : WFT tr) (hd : (dkeys dnew).Nodup) : WFT (dset tr l dnew) := by
  refine ⟨nodup_dkeys_dset tr l dnew h.1, ?_⟩
  intro l' d' hget
  rw [dget_dset] at hget
  by_cases he : l' = l
  · rw [if_pos he] at hget
    cases hget
    exact hd
  · rw [if_neg he] at hget
    exact h.2 l' d' hget

theorem wft_ddGet_snd (tr : Table) (l : String) (h : WFT tr) :
    WFT (ddGet [] tr l).2 := by
  unfold ddGet
  cases hget : dget tr l with
  | some d => exact h
  | none =>
    constructor
    · have hk : l ∉ dkeys tr := by
        rw [dkeys_mem_iff]
        rintro ⟨v, hv⟩
        rw [hget] at hv
        exact Option.noConfusion hv
      unfold dkeys
      rw [List.map_append]
      simp only [List.map_cons, List.map_nil]
      rw [List.nodup_append]
      refine ⟨h.1, List.nodup_singleton l, fun a ha hb => ?_⟩
      rw [List.mem_singleton] at hb
      exact hk (hb ▸ ha)
    · intro l' d' hget'
      rw [dget_append] at hget'
      cases hg : dget tr l' with
      | some d0 =>
        rw [hg, Option.or_some] at hget'
        have he := Option.some.inj hget'
        rw [← he]
        exact h.2 l' d0 hg
      | none =>
        rw [hg, Option.none_or] at hget'
        by_cases he : l = l'
        · simp only [dget_cons, he, if_pos, beq_self_eq_true, if_true] at hget'
          cases hget'
          exact List.nodup_nil
        · simp [dget_cons, dget, he] at hget'

theorem dgetD_nodup (tr : Table) (l : String) (h : WFT tr) :
    (dkeys (dgetD tr l [])).Nodup := by
  unfold dgetD
  cases hget : dget tr l with
  | some d => exact h.2 l d hget
  | none => exact List.nodup_nil

theorem wft_updateLocale (tr : Table) (l : String)
    (kvs : List (String × String)) (h : WFT tr) : WFT (updateLocale tr l kvs) := by
  unfold updateLocale
  refine wft_dset_table _ l _ (wft_ddGet_snd tr l h) ?_
  rw [ddGet_fst]
  exact nodup_dkeys_dupdate _ kvs (dgetD_nodup tr l h)

theorem nodup_dkeys_filter (d : LocaleTable) (p : String × String → Bool)
    (h : (dkeys d).Nodup) : (dkeys (d.filter p)).Nodup := by
  unfold dkeys at h ⊢
  exact List.Nodup.sublist (List.Sublist.map _ (List.filter_sublist d)) h

theorem wft_filterLocale (ref locale : String) (tr : Table) (h : WFT tr) :
    WFT (filterLocale ref locale tr) := by
  unfold filterLocale
  have h1 : WFT (ddGet [] tr locale).2 := wft_ddGet_snd tr locale h
  have h2 : WFT (if (ddGet ([] : LocaleTable) tr locale).1.isEmpty then
      (ddGet ([] : LocaleTable) tr locale).2
      else (ddGet [] (ddGet ([] : LocaleTable) tr locale).2 ref).2) := by
    by_cases he : (ddGet ([] : LocaleTable) tr locale).1.isEmpty = true
    · rw [if_pos he]
      exact h1
    · rw [if_neg he]
      exact wft_ddGet_snd _ ref h1
  refine wft_dset_table _ locale _ h2 ?_
  apply nodup_dkeys_filter
  rw [ddGet_fst]
  exact dgetD_nodup tr locale h

theorem wft_processPair (ref locale : String) (st : ExtractState)
    (fp : FilePair) (h : WFT st.translations) :
    WFT (processPair ref locale st fp).translations := by
  unfold processPair
  by_cases hc : (fp.l10nExists && fp.refExists && fp.parserOk) = true
  · rw [if_pos hc]
    dsimp only
    by_cases hcache : st.refCache.contains fp.keyPath = true
    · rw [if_pos hcache]
      exact wft_updateLocale _ _ _ h
    · rw [if_neg hcache]
      exact wft_updateLocale _ _ _ (wft_updateLocale _ _ _ h)
  · rw [if_neg hc]
    exact h

theorem wft_processLocale (ref : String) (st : ExtractState)
    (lp : String × List FilePair) (h : WFT st.translations) :
    WFT (processLocale ref st lp).translations := by
  obtain ⟨l0, pairs⟩ := lp
  have hfold : ∀ st0 : ExtractState, WFT st0.translations →
      WFT ((pairs.foldl (fun s fp => processPair ref l0 s fp)
        st0).translations) := by
    induction pairs with
    | nil => exact fun st0 h0 => h0
    | cons fp ps ih =>
      intro st0 h0
      rw [List.foldl_cons]
      exact ih _ (wft_processPair ref l0 st0 fp h0)
  unfold processLocale
  dsimp only
  apply wft_ddGet_snd
  by_cases hr : (l0 == ref) = true
  · rw [if_pos hr]
    exact hfold st h
  · rw [if_neg hr]
    exact wft_filterLocale ref l0 _ (hfold st h)

theorem wft_extract (ref : String) (input : ExtractInput) :
    WFT (extractStrings ref input) := by
  unfold extractStrings
  have hgen : ∀ st : ExtractState, WFT st.translations →
      WFT (input.foldl (fun st lp => processLocale ref st lp) st).translations := by
    induction input with
    | nil => exact fun st h => h
    | cons lp input ih =>
      intro st h
      exact ih _ (wft_processLocale ref st lp h)
  refine hgen _ ⟨List.nodup_nil, ?_⟩
  intro l d hget
  simp [dget] at hget

/-! ## Characterisation of the first loop of `getTranslations` -/

/-- Message `m` of experiment `eid` is present for locale `l` in the
partially-built `json_output` (reading through missing bindings as Python's
`defaultdict` would). -/
def OutHas (out : List (String × ExpData)) (eid l m : String) : Prop :=
  m ∈ dkeys (dgetD (dgetD out eid emptyExp).translations l [])

/-- Its stored translation, if any. -/
def OutVal (out : List (String × ExpData)) (eid l m : String) : Option String :=
  dget (dgetD (dgetD out eid emptyExp).translations l []) m

/-- Some triple `(l, k, v)` with `k` splitting into `[eid, m]` occurs in the
flattened iteration sequence. -/
def TripleHas (ts : List (String × String × String)) (l eid m : String) :
    Prop :=
  ∃ k v, (l, k, v) ∈ ts ∧ pySplitColon k = [eid, m]

/-- The translation recorded by the latest such triple. -/
def lastTriple (ts : List (String × String × String)) (l eid m : String) :
    Option String :=
  ts.reverse.findSome? (fun t =>
    if t.1 == l && (pySplitColon t.2.1 == [eid, m]) then some t.2.2 else none)

theorem dget_mapValue (d : List (String × ExpData)) (e0 : String)
    (g : ExpData → ExpData) (k : String) :
    dget (d.map (fun p => if p.1 == e0 then (p.1, g p.2) else p)) k =
      if k = e0 then (dget d e0).map g else dget d k := by
  induction d with
  | nil => simp [dget]
  | cons p d ih =>
    rw [List.map_cons]
    by_cases h1 : p.1 = e0
    · have hh : (if p.1 == e0 then (p.1, g p.2) else p) = (p.1, g p.2) := by
        simp [h1]
      rw [hh]
      simp only [dget_cons, ih]
      by_cases h2 : k = e0
      · have h3 : p.1 = k := h1.trans h2.symm
        simp [h1, h2, h3]
      · have h3 : ¬ p.1 = k := fun he => h2 (he.symm.trans h1)
        have h4 : ¬ e0 = k := fun he => h2 he.symm
        simp [h1, h2, h3, h4]
    · have hh : (if p.1 == e0 then (p.1, g p.2) else p) = p := by simp [h1]
      rw [hh]
      simp only [dget_cons, ih]
      by_cases h2 : p.1 = k
      · have h3 : ¬ k = e0 := fun he => h1 (h2.trans he)
        simp [h1, h2, h3]
      · simp [h1, h2]

/-- The update performed by `insertGood` on the experiment's record. -/
def bumpExp (locale mid v : String) (ed : ExpData) : ExpData :=
  { ed with translations := updateLocale ed.translations locale [(mid, v)] }

theorem insertGood_eq (out : List (String × ExpData))
    (locale eid mid v : String) :
    insertGood out locale eid mid v =
      (if dmem out eid then out else out ++ [(eid, emptyExp)]).map
        (fun p => if p.1 == eid then (p.1, bumpExp locale mid v p.2) else p) := by
  unfold insertGood bumpExp
  rfl

theorem dget_ensure (out : List (String × ExpData)) (eid k : String) :
    dget (if dmem out eid then out else out ++ [(eid, emptyExp)]) k =
      if k = eid then some (dgetD out eid emptyExp) else dget out k := by
  by_cases hm : dmem out eid = true
  · rw [if_pos hm]
    by_cases h2 : k = eid
    · subst h2
      rcases (dmem_iff out k).mp hm with ⟨v, hv⟩
      rw [if_pos rfl, hv]
      unfold dgetD
      rw [hv, Option.getD_some]
    · rw [if_neg h2]
  · rw [if_neg hm]
    have hnone : dget out eid = none := by
      rw [← dmem_eq_false]
      exact Bool.not_eq_true _ ▸ hm
    rw [dget_append]
    by_cases h2 : k = eid
    · subst h2
      rw [if_pos rfl, hnone, Option.none_or]
      unfold dgetD
      rw [hnone]
      simp [dget_cons]
    · rw [if_neg h2]
      have h3 : ¬ eid = k := fun he => h2 he.symm
      simp [dget_cons, dget, h3]

theorem dget_insertGood (out : List (String × ExpData))
    (locale eid mid v k : String) :
    dget (insertGood out locale eid mid v) k =
      if k = eid then some (bumpExp locale mid v (dgetD out eid emptyExp))
      else dget out k := by
  rw [insertGood_eq, dget_mapValue]
  by_cases h : k = eid
  · subst h
    rw [if_pos rfl, if_pos rfl, dget_ensure, if_pos rfl]
    rfl
  · rw [if_neg h, if_neg h, dget_ensure, if_neg h]

theorem dgetD_insertGood (out : List (String × ExpData))
    (locale eid mid v k : String) :
    dgetD (insertGood out locale eid mid v) k emptyExp =
      if k = eid then bumpExp locale mid v (dgetD out eid emptyExp)
      else dgetD out k emptyExp := by
  unfold dgetD
  rw [dget_insertGood]
  by_cases h : k = eid
  · rw [if_pos h, if_pos h, Option.getD_some]
    rfl
  · rw [if_neg h, if_neg h]

theorem dgetD_bumpExp (locale mid v : String) (ed : ExpData) (l : String) :
    dgetD (bumpExp locale mid v ed).translations l [] =
      if l = locale then dupdate (dgetD ed.translations locale []) [(mid, v)]
      else dgetD ed.translations l [] := by
  unfold bumpExp dgetD
  dsimp only
  rw [dget_updateLocale]
  by_cases h : l = locale
  · rw [if_pos h, if_pos h, Option.getD_some]
    rfl
  · rw [if_neg h, if_neg h]

theorem outHas_insertGood (out : List (String × ExpData))
    (locale eid mid v : String) (e l m : String) :
    OutHas (insertGood out locale eid mid v) e l m ↔
      OutHas out e l m ∨ (e = eid ∧ l = locale ∧ m = mid) := by
  unfold OutHas
  rw [dgetD_insertGood]
  by_cases h1 : e = eid
  · rw [if_pos h1, dgetD_bumpExp]
    by_cases h2 : l = locale
    · rw [if_pos h2, dkeys_dupdate_iff]
      simp only [List.map_cons, List.map_nil, List.mem_singleton, h1, h2,
        eq_self_iff_true, true_and]
      exact or_comm
    · rw [if_neg h2]
      simp [h1, h2]
  · rw [if_neg h1]
    simp [h1]

theorem outVal_insertGood (out : List (String × ExpData))
    (locale eid mid v : String) (e l m : String) :
    OutVal (insertGood out locale eid mid v) e l m =
      if e = eid ∧ l = locale ∧ m = mid then some v
      else OutVal out e l m := by
  unfold OutVal
  rw [dgetD_insertGood]
  by_cases h1 : e = eid
  · rw [if_pos h1, dgetD_bumpExp]
    by_cases h2 : l = locale
    · rw [if_pos h2, dget_dupdate]
      by_cases h3 : m = mid
      · rw [if_pos ⟨h1, h2, h3⟩]
        subst h3
        simp [lastVal, List.findSome?]
      · rw [if_neg (by simp [h3])]
        have hl : lastVal [(mid, v)] m = none := by
          rw [lastVal_eq_none_iff]
          intro kv hkv
          rw [List.mem_singleton] at hkv
          subst hkv
          exact fun he => h3 he.symm
        rw [hl, Option.none_or, h1, h2]
    · rw [if_neg h2, if_neg (by simp [h2]), h1]
  · rw [if_neg h1, if_neg (by simp [h1])]

theorem outHas_nil (e l m : String) : ¬ OutHas [] e l m := by
  intro h
  simp [OutHas, dgetD, dget, emptyExp, dkeys] at h

theorem tripleHas_nil (l e m : String) : ¬ TripleHas [] l e m := by
  rintro ⟨k, v, hmem, _⟩
  simp at hmem

theorem tripleHas_cons (l0 k0 v0 : String)
    (ts : List (String × String × String)) (l e m : String) :
    TripleHas ((l0, k0, v0) :: ts) l e m ↔
      (l0 = l ∧ pySplitColon k0 = [e, m]) ∨ TripleHas ts l e m := by
  unfold TripleHas
  constructor
  · rintro ⟨k, v, hmem, hsp⟩
    rcases List.mem_cons.mp hmem with he | hm
    · simp only [Prod.mk.injEq] at he
      obtain ⟨h1, h2, _⟩ := he
      left
      refine ⟨h1.symm, ?_⟩
      rw [← h2]
      exact hsp
    · exact Or.inr ⟨k, v, hm, hsp⟩
  · rintro (⟨h1, hsp⟩ | ⟨k, v, hm, hsp⟩)
    · exact ⟨k0, v0, List.mem_cons.mpr (Or.inl (by rw [h1])), hsp⟩
    · exact ⟨k, v, List.mem_cons_of_mem _ hm, hsp⟩

theorem buildGo_cons_ok (acc : List (String × ExpData))
    (t : String × String × String) (ts : List (String × String × String))
    (out : List (String × ExpData))
    (h : buildGo (t :: ts) acc = .ok out) :
    ∃ acc', insertTriple acc t = .ok acc' ∧ buildGo ts acc' = .ok out := by
  unfold buildGo at h
  cases hi : insertTriple acc t with
  | error e =>
    rw [hi] at h
    exact Except.noConfusion h
  | ok acc' =>
    rw [hi] at h
    exact ⟨acc', rfl, h⟩

theorem insertTriple_ok_inv (acc : List (String × ExpData))
    (t : String × String × String) (acc' : List (String × ExpData))
    (h : insertTriple acc t = .ok acc') :
    ∃ e0 m0, pySplitColon t.2.1 = [e0, m0] ∧
      acc' = insertGood acc t.1 e0 m0 t.2.2 := by
  unfold insertTriple at h
  rcases hs : pySplitColon t.2.1 with _ | ⟨e0, tl⟩
  · rw [hs] at h
    exact Except.noConfusion h
  · rcases tl with _ | ⟨m0, tl2⟩
    · rw [hs] at h
      exact Except.noConfusion h
    · rcases tl2 with _ | ⟨x, tl3⟩
      · rw [hs] at h
        exact ⟨e0, m0, rfl, (Except.ok.inj h).symm⟩
      · rw [hs] at h
        exact Except.noConfusion h

theorem listPair_inv {e0 m0 e m : String} (h : [e0, m0] = [e, m]) :
    e0 = e ∧ m0 = m := by
  have h1 := List.cons.inj h
  have h2 := List.cons.inj h1.2
  exact ⟨h1.1, h2.1⟩

theorem buildGo_outHas (ts : List (String × String × String)) :
    ∀ acc out, buildGo ts acc = .ok out →
      ∀ e l m, OutHas out e l m ↔ OutHas acc e l m ∨ TripleHas ts l e m := by
  induction ts with
  | nil =>
    intro acc out h e l m
    unfold buildGo at h
    cases Except.ok.inj h
    simp [tripleHas_nil]
  | cons t ts ih =>
    intro acc out h
    obtain ⟨acc', hi, hrest⟩ := buildGo_cons_ok acc t ts out h
    obtain ⟨e0, m0, hs, he⟩ := insertTriple_ok_inv acc t acc' hi
    subst he
    intro e l m
    obtain ⟨l0, k0, v0⟩ := t
    rw [ih _ out hrest e l m, outHas_insertGood, tripleHas_cons]
    dsimp only at hs ⊢
    constructor
    · rintro ((h | ⟨he1, hl1, hm1⟩) | h)
      · exact Or.inl h
      · refine Or.inr (Or.inl ⟨hl1.symm, ?_⟩)
        rw [hs, he1, hm1]
      · exact Or.inr (Or.inr h)
    · rintro (h | (⟨hl1, hsp⟩ | h))
      · exact Or.inl (Or.inl h)
      · rw [hs] at hsp
        obtain ⟨h1, h2⟩ := listPair_inv hsp
        exact Or.inl (Or.inr ⟨h1.symm, hl1.symm, h2.symm⟩)
      · exact Or.inr h

theorem lastTriple_nil (l e m : String) : lastTriple [] l e m = none := by
  simp [lastTriple]

theorem lastTriple_cons (l0 k0 v0 : String)
    (ts : List (String × String × String)) (l e m : String) :
    lastTriple ((l0, k0, v0) :: ts) l e m =
      (lastTriple ts l e m).or
        (if l0 = l ∧ pySplitColon k0 = [e, m] then some v0 else none) := by
  unfold lastTriple
  rw [List.reverse_cons, List.findSome?_append]
  congr 1
  show List.findSome? _ [(l0, k0, v0)] = _
  by_cases hc : l0 = l ∧ pySplitColon k0 = [e, m]
  · rw [if_pos hc]
    have : (l0 == l && (pySplitColon k0 == [e, m])) = true := by
      simp [hc.1, hc.2]
    simp [List.findSome?, this]
  · rw [if_neg hc]
    have : (l0 == l && (pySplitColon k0 == [e, m])) = false := by
      rw [Bool.and_eq_false_iff]
      by_cases h1 : l0 = l
      · right
        have h2 : ¬ pySplitColon k0 = [e, m] := fun hx => hc ⟨h1, hx⟩
        simp [h2]
      · left
        simp [h1]
    simp [List.findSome?, this]

theorem buildGo_outVal (ts : List (String × String × String)) :
    ∀ acc out, buildGo ts acc = .ok out →
      ∀ e l m, OutVal out e l m = (lastTriple ts l e m).or (OutVal acc e l m) := by
  induction ts with
  | nil =>
    intro acc out h e l m
    unfold buildGo at h
    cases Except.ok.inj h
    rw [lastTriple_nil, Option.none_or]
  | cons t ts ih =>
    intro acc out h
    obtain ⟨acc', hi, hrest⟩ := buildGo_cons_ok acc t ts out h
    obtain ⟨e0, m0, hs, he⟩ := insertTriple_ok_inv acc t acc' hi
    subst he
    intro e l m
    obtain ⟨l0, k0, v0⟩ := t
    rw [ih _ out hrest e l m, outVal_insertGood, lastTriple_cons]
    dsimp only at hs ⊢
    have hcond : (l0 = l ∧ pySplitColon k0 = [e, m]) ↔
        (e = e0 ∧ l = l0 ∧ m = m0) := by
      rw [hs]
      constructor
      · rintro ⟨h1, hsp⟩
        obtain ⟨h2, h3⟩ := listPair_inv hsp
        exact ⟨h2.symm, h1.symm, h3.symm⟩
      · rintro ⟨h1, h2, h3⟩
        exact ⟨h2.symm, by rw [h1, h3]⟩
    rw [if_congr hcond rfl rfl]
    cases hlt : lastTriple ts l e m with
    | some w => simp [Option.or_some]
    | none =>
      rw [Option.none_or, Option.none_or]
      by_cases hc : e = e0 ∧ l = l0 ∧ m = m0
      · rw [if_pos hc, if_pos hc, Option.or_some]
      · rw [if_neg hc, if_neg hc, Option.none_or]

theorem bumpExp_complete_locales (locale mid v : String) (ed : ExpData) :
    (bumpExp locale mid v ed).complete_locales = ed.complete_locales := rfl

theorem buildGo_cl (ts : List (String × String × String)) :
    ∀ acc out, buildGo ts acc = .ok out →
      (∀ e, (dgetD acc e emptyExp).complete_locales = []) →
      ∀ e, (dgetD out e emptyExp).complete_locales = [] := by
  induction ts with
  | nil =>
    intro acc out h hacc
    unfold buildGo at h
    cases Except.ok.inj h
    exact hacc
  | cons t ts ih =>
    intro acc out h hacc
    obtain ⟨acc', hi, hrest⟩ := buildGo_cons_ok acc t ts out h
    obtain ⟨e0, m0, hs, he⟩ := insertTriple_ok_inv acc t acc' hi
    subst he
    refine ih _ out hrest ?_
    intro e
    rw [dgetD_insertGood]
    by_cases hc : e = e0
    · rw [if_pos hc, bumpExp_complete_locales]
      exact hacc e0
    · rw [if_neg hc]
      exact hacc e

theorem dkeys_mapValue (d : List (String × ExpData)) (e0 : String)
    (g : ExpData → ExpData) :
    dkeys (d.map (fun p => if p.1 == e0 then (p.1, g p.2) else p)) = dkeys d := by
  unfold dkeys
  rw [List.map_map]
  apply List.map_congr_left
  intro p _
  by_cases h : p.1 = e0 <;> simp [h]

theorem nodup_dkeys_insertGood (out : List (String × ExpData))
    (locale eid mid v : String) (h : (dkeys out).Nodup) :
    (dkeys (insertGood out locale eid mid v)).Nodup := by
  rw [insertGood_eq, dkeys_mapValue]
  by_cases hm : dmem out eid = true
  · rw [if_pos hm]
    exact h
  · rw [if_neg hm]
    have hk : eid ∉ dkeys out := by
      rw [dkeys_mem_iff_dmem]
      simp [hm]
    unfold dkeys
    rw [List.map_append]
    simp only [List.map_cons, List.map_nil]
    rw [List.nodup_append]
    refine ⟨h, List.nodup_singleton eid, fun a ha hb => ?_⟩
    rw [List.mem_singleton] at hb
    exact hk (hb ▸ ha)

theorem buildGo_nodup (ts : List (String × String × String)) :
    ∀ acc out, buildGo ts acc = .ok out → (dkeys acc).Nodup →
      (dkeys out).Nodup := by
  induction ts with
  | nil =>
    intro acc out h hacc
    unfold buildGo at h
    cases Except.ok.inj h
    exact hacc
  | cons t ts ih =>
    intro acc out h hacc
    obtain ⟨acc', hi, hrest⟩ := buildGo_cons_ok acc t ts out h
    obtain ⟨e0, m0, hs, he⟩ := insertTriple_ok_inv acc t acc' hi
    subst he
    exact ih _ out hrest (nodup_dkeys_insertGood acc t.1 e0 m0 t.2.2 hacc)

theorem nodup_dkeys_ddGet_snd {α : Type} (dflt : α) (d : List (String × α))
    (k : String) (h : (dkeys d).Nodup) : (dkeys (ddGet dflt d k).2).Nodup := by
  unfold ddGet
  cases hget : dget d k with
  | some v => exact h
  | none =>
    have hk : k ∉ dkeys d := by
      rw [dkeys_mem_iff]
      rintro ⟨v, hv⟩
      rw [hget] at hv
      exact Option.noConfusion hv
    unfold dkeys
    rw [List.map_append]
    simp only [List.map_cons, List.map_nil]
    rw [List.nodup_append]
    refine ⟨h, List.nodup_singleton k, fun a ha hb => ?_⟩
    rw [List.mem_singleton] at hb
    exact hk (hb ▸ ha)

theorem nodup_dkeys_updateLocale (tr : Table) (l : String)
    (kvs : List (String × String)) (h : (dkeys tr).Nodup) :
    (dkeys (updateLocale tr l kvs)).Nodup := by
  unfold updateLocale
  exact nodup_dkeys_dset _ l _ (nodup_dkeys_ddGet_snd [] tr l h)

theorem buildGo_transNodup (ts : List (String × String × String)) :
    ∀ acc out, buildGo ts acc = .ok out →
      (∀ e, (dkeys (dgetD acc e emptyExp).translations).Nodup) →
      ∀ e, (dkeys (dgetD out e emptyExp).translations).Nodup := by
  induction ts with
  | nil =>
    intro acc out h hacc
    unfold buildGo at h
    cases Except.ok.inj h
    exact hacc
  | cons t ts ih =>
    intro acc out h hacc
    obtain ⟨acc', hi, hrest⟩ := buildGo_cons_ok acc t ts out h
    obtain ⟨e0, m0, hs, he⟩ := insertTriple_ok_inv acc t acc' hi
    subst he
    refine ih _ out hrest ?_
    intro e
    rw [dgetD_insertGood]
    by_cases hc : e = e0
    · rw [if_pos hc]
      unfold bumpExp
      exact nodup_dkeys_updateLocale _ _ _ (hacc e0)
    · rw [if_neg hc]
      exact hacc e

theorem outHas_dmem (out : List (String × ExpData)) (e l m : String)
    (h : OutHas out e l m) : dmem out e = true := by
  by_cases hm : dmem out e = true
  · exact hm
  · exfalso
    have hnone : dget out e = none := by
      rw [← dmem_eq_false]
      exact Bool.not_eq_true _ ▸ hm
    unfold OutHas dgetD at h
    rw [hnone] at h
    simp [emptyExp, dget, dkeys] at h

theorem buildGo_nonempty (ts : List (String × String × String)) :
    ∀ acc out, buildGo ts acc = .ok out →
      (∀ e, dmem acc e = true → ∃ l m, OutHas acc e l m) →
      ∀ e, dmem out e = true → ∃ l m, OutHas out e l m := by
  induction ts with
  | nil =>
    intro acc out h hacc
    unfold buildGo at h
    cases Except.ok.inj h
    exact hacc
  | cons t ts ih =>
    intro acc out h hacc
    obtain ⟨acc', hi, hrest⟩ := buildGo_cons_ok acc t ts out h
    obtain ⟨e0, m0, hs, he⟩ := insertTriple_ok_inv acc t acc' hi
    subst he
    refine ih _ out hrest ?_
    intro e hmem
    by_cases hc : e = e0
    · subst hc
      exact ⟨t.1, m0, (outHas_insertGood acc t.1 e m0 t.2.2 e t.1 m0).mpr
        (Or.inr ⟨rfl, rfl, rfl⟩)⟩
    · have hmem0 : dmem acc e = true := by
        rw [dmem_iff] at hmem ⊢
        rcases hmem with ⟨v, hv⟩
        rw [dget_insertGood, if_neg hc] at hv
        exact ⟨v, hv⟩
      obtain ⟨l, m, hlm⟩ := hacc e hmem0
      exact ⟨l, m, (outHas_insertGood acc t.1 e0 m0 t.2.2 e l m).mpr
        (Or.inl hlm)⟩

/-! ## Relating the flattened triples to the table -/

theorem mem_triples_iff (tbl : Table) (l k v : String) :
    (l, k, v) ∈ triples tbl ↔ ∃ ld, (l, ld) ∈ tbl ∧ (k, v) ∈ ld := by
  unfold triples
  rw [List.mem_flatten]
  constructor
  · rintro ⟨L, hL, hmem⟩
    rcases List.mem_map.mp hL with ⟨lm, hlm, hLeq⟩
    rw [← hLeq] at hmem
    rcases List.mem_map.mp hmem with ⟨kv, hkv, heq⟩
    simp only [Prod.mk.injEq] at heq
    obtain ⟨h1, h2, h3⟩ := heq
    refine ⟨lm.2, ?_, ?_⟩
    · have hh : lm = (l, lm.2) := by
        rw [← h1]
      rw [← hh]
      exact hlm
    · have hh : kv = (k, v) := by
        rw [← h2, ← h3]
      rw [← hh]
      exact hkv
  · rintro ⟨ld, hld, hkv⟩
    refine ⟨ld.map (fun kv => (l, kv.1, kv.2)), ?_, ?_⟩
    · exact List.mem_map.mpr ⟨(l, ld), hld, rfl⟩
    · exact List.mem_map.mpr ⟨(k, v), hkv, rfl⟩

theorem tripleHas_table (tbl : Table) (hnd : (dkeys tbl).Nodup)
    (l e m : String) :
    TripleHas (triples tbl) l e m ↔
      ∃ k v, (k, v) ∈ dgetD tbl l [] ∧ pySplitColon k = [e, m] := by
  unfold TripleHas
  constructor
  · rintro ⟨k, v, hmem, hsp⟩
    rcases (mem_triples_iff tbl l k v).mp hmem with ⟨ld, hld, hkv⟩
    have hget : dget tbl l = some ld := dget_eq_of_mem_nodup tbl l ld hnd hld
    refine ⟨k, v, ?_, hsp⟩
    unfold dgetD
    rw [hget]
    exact hkv
  · rintro ⟨k, v, hkv, hsp⟩
    cases hget : dget tbl l with
    | none =>
      unfold dgetD at hkv
      rw [hget] at hkv
      simp at hkv
    | some ld =>
      unfold dgetD at hkv
      rw [hget, Option.getD_some] at hkv
      exact ⟨k, v, (mem_triples_iff tbl l k v).mpr
        ⟨ld, mem_of_dget_eq tbl l ld hget, hkv⟩, hsp⟩

/-- The set of message ids that locale `l` holds for experiment `eid`,
read off the extraction table. -/
def localeMsgIds (tbl : Table) (l eid : String) : List String :=
  (dgetD tbl l []).filterMap (fun kv =>
    match pySplitColon kv.1 with
    | [e, m] => if e == eid then some m else none
    | _ => none)

theorem mem_localeMsgIds (tbl : Table) (l eid m : String) :
    m ∈ localeMsgIds tbl l eid ↔
      ∃ k v, (k, v) ∈ dgetD tbl l [] ∧ pySplitColon k = [eid, m] := by
  unfold localeMsgIds
  rw [List.mem_filterMap]
  constructor
  · rintro ⟨kv, hkv, hf⟩
    rcases hsp : pySplitColon kv.1 with _ | ⟨e, tl⟩
    · rw [hsp] at hf
      exact absurd hf (by simp)
    · rcases tl with _ | ⟨m', tl2⟩
      · rw [hsp] at hf
        exact absurd hf (by simp)
      · rcases tl2 with _ | ⟨x, tl3⟩
        · rw [hsp] at hf
          by_cases he : e = eid
          · have hm : m' = m := by
              rw [he] at hf
              simpa using hf
            refine ⟨kv.1, kv.2, by simpa using hkv, ?_⟩
            rw [hsp, he, hm]
          · simp [he] at hf
        · rw [hsp] at hf
          exact absurd hf (by simp)
  · rintro ⟨k, v, hkv, hsp⟩
    refine ⟨(k, v), hkv, ?_⟩
    rw [hsp]
    simp

theorem tripleHas_msgIds (tbl : Table) (hnd : (dkeys tbl).Nodup)
    (l e m : String) :
    TripleHas (triples tbl) l e m ↔ m ∈ localeMsgIds tbl l e := by
  rw [tripleHas_table tbl hnd, mem_localeMsgIds]

/-- The raw value stored in the table for locale `l` under the (unique)
composite key splitting into `[eid, m]`, scanning from the latest binding. -/
def tblLookup (tbl : Table) (l eid m : String) : Option String :=
  (dgetD tbl l []).reverse.findSome?
    (fun kv => if pySplitColon kv.1 == [eid, m] then some kv.2 else none)

theorem lastTriple_append (A B : List (String × String × String))
    (l e m : String) :
    lastTriple (A ++ B) l e m = (lastTriple B l e m).or (lastTriple A l e m) := by
  unfold lastTriple
  rw [List.reverse_append, List.findSome?_append]

theorem triples_fst_mem (tbl : Table) (t : String × String × String)
    (h : t ∈ triples tbl) : t.1 ∈ dkeys tbl := by
  obtain ⟨l, k, v⟩ := t
  rcases (mem_triples_iff tbl l k v).mp h with ⟨ld, hld, _⟩
  unfold dkeys
  exact List.mem_map.mpr ⟨(l, ld), hld, rfl⟩

theorem lastTriple_none_of_not_mem (tbl : Table) (l e m : String)
    (h : l ∉ dkeys tbl) : lastTriple (triples tbl) l e m = none := by
  unfold lastTriple
  rw [List.findSome?_eq_none]
  intro t ht
  rw [List.mem_reverse] at ht
  have hne : t.1 ≠ l := fun he => h (he ▸ triples_fst_mem tbl t ht)
  have hcond : (t.1 == l && (pySplitColon t.2.1 == [e, m])) = false := by
    rw [Bool.and_eq_false_iff]
    left
    simpa using hne
  rw [hcond]
  simp

theorem lastTriple_seg_self (l : String) (ld : LocaleTable) (e m : String) :
    lastTriple (ld.map (fun kv => (l, kv.1, kv.2))) l e m =
      ld.reverse.findSome?
        (fun kv => if pySplitColon kv.1 == [e, m] then some kv.2 else none) := by
  unfold lastTriple
  rw [← List.map_reverse, List.findSome?_map]
  have hfun : ((fun t : String × String × String =>
      if t.1 == l && (pySplitColon t.2.1 == [e, m]) then some t.2.2 else none) ∘
      (fun kv : String × String => (l, kv.1, kv.2))) =
      (fun kv : String × String =>
        if pySplitColon kv.1 == [e, m] then some kv.2 else none) := by
    funext kv
    simp
  rw [hfun]

theorem lastTriple_seg_ne (l0 l : String) (ld : LocaleTable) (e m : String)
    (h : l0 ≠ l) :
    lastTriple (ld.map (fun kv => (l0, kv.1, kv.2))) l e m = none := by
  unfold lastTriple
  rw [List.findSome?_eq_none]
  intro t ht
  rw [List.mem_reverse] at ht
  rcases List.mem_map.mp ht with ⟨kv, _, heq⟩
  rw [← heq]
  simp [h]

theorem lastTriple_triples (tbl : Table) (hnd : (dkeys tbl).Nodup)
    (l e m : String) :
    lastTriple (triples tbl) l e m = tblLookup tbl l e m := by
  induction tbl with
  | nil =>
    simp [triples, lastTriple, tblLookup, dgetD, dget]
  | cons lm rest ih =>
    obtain ⟨l0, ld0⟩ := lm
    have hnd' : (dkeys rest).Nodup := by
      simp only [dkeys, List.map_cons, List.nodup_cons] at hnd
      exact hnd.2
    have htr : triples ((l0, ld0) :: rest) =
        ld0.map (fun kv => (l0, kv.1, kv.2)) ++ triples rest := by
      unfold triples
      rw [List.map_cons, List.flatten_cons]
    rw [htr, lastTriple_append]
    by_cases hl : l0 = l
    · subst hl
      have hnotin : l0 ∉ dkeys rest := by
        simp only [dkeys, List.map_cons, List.nodup_cons] at hnd
        exact hnd.1
      rw [lastTriple_none_of_not_mem rest l0 e m hnotin, Option.none_or,
        lastTriple_seg_self]
      unfold tblLookup dgetD
      rw [dget_cons, if_pos rfl, Option.getD_some]
    · rw [lastTriple_seg_ne l0 l ld0 e m hl, Option.or_none, ih hnd']
      unfold tblLookup dgetD
      rw [dget_cons, if_neg hl]

/-! ## The second loop: `processExpWith` and `finalize` -/

theorem foldl_partition (f : String → Bool) (xs : List String)
    (a b : List String) :
    xs.foldl (fun acc l => if f l then (acc.1 ++ [l], acc.2)
      else (acc.1, acc.2 ++ [l])) (a, b) =
      (a ++ xs.filter f, b ++ xs.filter (fun l => !f l)) := by
  induction xs generalizing a b with
  | nil => simp
  | cons x xs ih =>
    rw [List.foldl_cons]
    by_cases h : f x = true
    · rw [if_pos h, ih]
      simp [List.filter_cons, h]
    · rw [if_neg h, ih]
      have h2 : f x = false := by
        cases hf : f x
        · rfl
        · exact absurd hf h
      simp [List.filter_cons, h2]

theorem processExpWith_spec (σ : List String → List String) (ref : String)
    (ed : ExpData) (rd : LocaleTable)
    (href : dget ed.translations ref = some rd)
    (hcl : ed.complete_locales = []) :
    processExpWith σ ref ed =
      ({ translations :=
           (((sortStr (dkeys ed.translations)).filter
               (fun l => !supersetCond (dkeys rd)
                 (dkeys (dgetD ed.translations l [])))).foldl
             (fun t l => ddel t l) ed.translations),
         complete_locales :=
           sortStr ((sortStr (dkeys ed.translations)).filter
             (fun l => supersetCond (dkeys rd)
               (dkeys (dgetD ed.translations l [])))) },
       σ ((sortStr (dkeys ed.translations)).filter
           (fun l => !((sortStr (dkeys ed.translations)).filter
             (fun l => !supersetCond (dkeys rd)
               (dkeys (dgetD ed.translations l [])))).contains l)) == [ref]) := by
  unfold processExpWith
  have hp : ddGet [] ed.translations ref = (rd, ed.translations) := by
    unfold ddGet
    rw [href]
  rw [hp]
  dsimp only
  rw [hcl, foldl_partition]
  dsimp only
  rw [List.nil_append, List.nil_append]

theorem mem_sortStr (xs : List String) (a : String) :
    a ∈ sortStr xs ↔ a ∈ xs := by
  unfold sortStr
  exact (@List.perm_insertionSort String (fun a b => a ≤ b)
    (fun a b => decLeStr a b) xs).mem_iff

theorem sorted_sortStr (xs : List String) :
    List.Sorted (fun a b : String => a ≤ b) (sortStr xs) := by
  unfold sortStr
  exact @List.sorted_insertionSort String (fun a b => a ≤ b)
    (fun a b => decLeStr a b) inferInstance inferInstance xs

theorem dget_foldl_ddel {α : Type} (ds : List String)
    (tr : List (String × α)) (k : String) :
    dget (ds.foldl (fun t l => ddel t l) tr) k =
      if ds.contains k then none else dget tr k := by
  induction ds generalizing tr with
  | nil => simp
  | cons d ds ih =>
    rw [List.foldl_cons, ih, dget_ddel]
    by_cases h2 : k = d
    · subst h2
      by_cases h1 : ds.contains k = true <;>
        simp [List.contains_cons, h1]
    · by_cases h1 : ds.contains k = true <;>
        simp [List.contains_cons, h1, h2]

theorem dget_mapPairs {α β : Type} (d : List (String × α)) (f : α → β)
    (k : String) :
    dget (d.map (fun p => (p.1, f p.2))) k = (dget d k).map f := by
  induction d with
  | nil => simp [dget]
  | cons p d ih =>
    by_cases h : p.1 = k <;> simp [dget_cons, h, ih]

theorem nodup_dkeys_filter2 {α : Type} (d : List (String × α))
    (p : String × α → Bool) (h : (dkeys d).Nodup) :
    (dkeys (d.filter p)).Nodup := by
  unfold dkeys at h ⊢
  exact List.Nodup.sublist (List.Sublist.map _ (List.filter_sublist d)) h

theorem nodup_dkeys_foldl_ddel {α : Type} (ds : List String)
    (d : List (String × α)) (h : (dkeys d).Nodup) :
    (dkeys (ds.foldl (fun t l => ddel t l) d)).Nodup := by
  induction ds generalizing d with
  | nil => exact h
  | cons x ds ih =>
    rw [List.foldl_cons]
    exact ih _ (nodup_dkeys_filter2 _ _ h)

theorem dkeys_mapPairs {α β : Type} (d : List (String × α)) (f : α → β) :
    dkeys (d.map (fun p => (p.1, f p.2))) = dkeys d := by
  unfold dkeys
  rw [List.map_map]
  rfl

theorem setEnum_dedup : SetEnum (fun xs => xs.dedup) :=
  fun xs => ⟨List.nodup_dedup xs, fun _ => List.mem_dedup⟩

theorem setEnum_eq_single (σ : List String → List String) (hσ : SetEnum σ)
    (xs : List String) (r : String) :
    σ xs = [r] ↔ xs ≠ [] ∧ ∀ a ∈ xs, a = r := by
  obtain ⟨hnd, hmem⟩ := hσ xs
  constructor
  · intro h
    constructor
    · intro hx
      subst hx
      have hr : r ∈ σ [] := by
        rw [h]
        exact List.mem_singleton_self r
      exact absurd ((hmem r).mp hr) (List.not_mem_nil r)
    · intro a ha
      have h2 : a ∈ σ xs := (hmem a).mpr ha
      rw [h] at h2
      exact List.mem_singleton.mp h2
  · rintro ⟨hne, hall⟩
    have hr : r ∈ σ xs := by
      rcases List.exists_mem_of_ne_nil xs hne with ⟨a, ha⟩
      have he := hall a ha
      rw [← he]
      exact (hmem a).mpr ha
    have hsub : ∀ b ∈ σ xs, b = r := fun b hb => hall b ((hmem b).mp hb)
    cases hx : σ xs with
    | nil =>
      rw [hx] at hr
      exact absurd hr (List.not_mem_nil r)
    | cons b tl =>
      have hb : b = r := hsub b (by rw [hx]; exact List.mem_cons_self b tl)
      cases htl : tl with
      | nil => rw [hb]
      | cons c tl2 =>
        exfalso
        have hc : c = r := hsub c (by
          rw [hx, htl]
          exact List.mem_cons_of_mem _ (List.mem_cons_self c tl2))
        rw [hx, htl] at hnd
        rcases List.nodup_cons.mp hnd with ⟨hnotin, _⟩
        refine hnotin ?_
        rw [hb, ← hc]
        exact List.mem_cons_self c tl2

theorem mem_partials_iff (σ : List String → List String) (ref : String)
    (mid : List (String × ExpData)) (hnd : (dkeys mid).Nodup) (eid : String) :
    eid ∈ (((mid.map (fun p => (p.1, processExpWith σ ref p.2))).filter
        (fun p => p.2.2)).map (fun p => p.1)) ↔
      ∃ ed, dget mid eid = some ed ∧ (processExpWith σ ref ed).2 = true := by
  constructor
  · intro h
    rcases List.mem_map.mp h with ⟨p, hp, hpe⟩
    rcases List.mem_filter.mp hp with ⟨hpm, hflag⟩
    rcases List.mem_map.mp hpm with ⟨q, hq, hqe⟩
    refine ⟨q.2, ?_, ?_⟩
    · have hq1 : q.1 = eid := by
        rw [← hpe, ← hqe]
      rw [← hq1]
      exact dget_eq_of_mem_nodup mid q.1 q.2 hnd (by
        have hqq : q = (q.1, q.2) := rfl
        rw [← hqq]
        exact hq)
    · rw [← hqe] at hflag
      exact hflag
  · rintro ⟨ed, hed, hflag⟩
    refine List.mem_map.mpr ⟨(eid, processExpWith σ ref ed), ?_, rfl⟩
    refine List.mem_filter.mpr ⟨?_, hflag⟩
    exact List.mem_map.mpr ⟨(eid, ed), mem_of_dget_eq mid eid ed hed, rfl⟩

theorem dget_finalize (σ : List String → List String) (ref : String)
    (mid : List (String × ExpData)) (hnd : (dkeys mid).Nodup) (eid : String) :
    dget (finalize σ ref mid) eid =
      match dget mid eid with
      | none => none
      | some ed =>
        if (processExpWith σ ref ed).2 then none
        else some (processExpWith σ ref ed).1 := by
  unfold finalize
  dsimp only
  rw [dget_foldl_ddel]
  have hfinal : dget ((mid.map (fun p => (p.1, processExpWith σ ref p.2))).map
      (fun p => (p.1, p.2.1))) eid =
      ((dget mid eid).map (fun ed => processExpWith σ ref ed)).map
        (fun pr => pr.1) := by
    rw [dget_mapPairs, dget_mapPairs]
  by_cases hp : eid ∈ (((mid.map (fun p => (p.1, processExpWith σ ref p.2))).filter
      (fun p => p.2.2)).map (fun p => p.1))
  · rw [if_pos (by simpa using hp)]
    obtain ⟨ed, hed, hflag⟩ := (mem_partials_iff σ ref mid hnd eid).mp hp
    rw [hed]
    dsimp only
    rw [if_pos hflag]
  · rw [if_neg (by simpa using hp)]
    rw [hfinal]
    cases hget : dget mid eid with
    | none => rfl
    | some ed =>
      dsimp only [Option.map_some']
      have hflag : (processExpWith σ ref ed).2 = false := by
        cases hf : (processExpWith σ ref ed).2
        · rfl
        · exact absurd ((mem_partials_iff σ ref mid hnd eid).mpr ⟨ed, hget, hf⟩) hp
      rw [if_neg (by simp [hflag])]

theorem nodup_dkeys_finalize (σ : List String → List String) (ref : String)
    (mid : List (String × ExpData)) (hnd : (dkeys mid).Nodup) :
    (dkeys (finalize σ ref mid)).Nodup := by
  unfold finalize
  dsimp only
  apply nodup_dkeys_foldl_ddel
  rw [dkeys_mapPairs, dkeys_mapPairs]
  exact hnd

theorem mem_iff_dget {α : Type} (d : List (String × α)) (k : String) (v : α)
    (hnd : (dkeys d).Nodup) : (k, v) ∈ d ↔ dget d k = some v :=
  ⟨dget_eq_of_mem_nodup d k v hnd, mem_of_dget_eq d k v⟩

/-! ## Claim C3 -/

/-- C3: after `extractStrings` completes, every CompositeKey retained in a
non-reference locale's table is also present in the reference locale's
final table. -/
theorem nonref_keys_subset_ref (ref : String) (input : ExtractInput)
    (l k : String) (hl : l ≠ ref)
    (hk : hasKey (extractStrings ref input) l k) :
    hasKey (extractStrings ref input) ref k :=
  refInv_extract ref input l hl k hk

/-- A small concrete run shared by several witnesses: `en-US` reference
with experiment `exp` (`hello`, `bye`); `fr` translates both, `de` only
`hello`. -/
def samplePair : FilePair :=
  { l10nExists := true, refExists := true, keyPath := "exp.ftl",
    parserOk := true,
    refEntities := [("hello", "H"), ("bye", "B")],
    l10nEntities := [("hello", "salut"), ("bye", "aurevoir")] }

def samplePairRef : FilePair :=
  { samplePair with l10nEntities := [("hello", "H"), ("bye", "B")] }

def samplePairDe : FilePair :=
  { samplePair with l10nEntities := [("hello", "hallo")] }

def sampleInput : ExtractInput :=
  [("en-US", [samplePairRef]), ("fr", [samplePair]), ("de", [samplePairDe])]

theorem nonref_keys_subset_ref_witness :
    (("fr" : String) ≠ "en-US") ∧
      hasKey (extractStrings "en-US" sampleInput) "en-US" "exp:hello" :=
  ⟨by decide,
   nonref_keys_subset_ref "en-US" sampleInput "fr" "exp:hello"
     (by decide) (by unfold hasKey; decide)⟩

/-! ## Claim C6 -/

theorem processPair_skip (ref locale : String) (st : ExtractState)
    (fp : FilePair) (h : (fp.l10nExists && fp.refExists) = false) :
    processPair ref locale st fp = st := by
  unfold processPair
  rw [if_neg]
  intro hc
  rw [Bool.and_eq_true] at hc
  exact Bool.false_ne_true (h ▸ hc.1)

theorem foldPairs_filter_exists (ref locale : String) (st : ExtractState)
    (pairs : List FilePair) :
    pairs.foldl (fun s fp => processPair ref locale s fp) st =
      (pairs.filter (fun fp => fp.l10nExists && fp.refExists)).foldl
        (fun s fp => processPair ref locale s fp) st := by
  induction pairs generalizing st with
  | nil => rfl
  | cons fp pairs ih =>
    rw [List.foldl_cons, List.filter_cons]
    cases hc : (fp.l10nExists && fp.refExists) with
    | true =>
      rw [if_pos rfl, List.foldl_cons, ih]
    | false =>
      rw [if_neg Bool.false_ne_true, processPair_skip ref locale st fp hc, ih]

/-- C6: file pairs whose localized or reference file does not exist are
skipped silently — removing them from the input leaves the extraction
result unchanged (and extraction, a total function, raises nothing). -/
theorem missing_files_skipped (ref : String) (input : ExtractInput) :
    extractStrings ref input =
      extractStrings ref (input.map (fun lp =>
        (lp.1, lp.2.filter (fun fp => fp.l10nExists && fp.refExists)))) := by
  unfold extractStrings
  have hgen : ∀ st : ExtractState,
      input.foldl (fun st lp => processLocale ref st lp) st =
        (input.map (fun lp =>
          (lp.1, lp.2.filter (fun fp => fp.l10nExists && fp.refExists)))).foldl
          (fun st lp => processLocale ref st lp) st := by
    induction input with
    | nil => exact fun st => rfl
    | cons lp input ih =>
      intro st
      rw [List.map_cons, List.foldl_cons, List.foldl_cons, ih]
      have hpl : processLocale ref st lp =
          processLocale ref st
            (lp.1, lp.2.filter (fun fp => fp.l10nExists && fp.refExists)) := by
        unfold processLocale
        rw [foldPairs_filter_exists]
      rw [hpl]
  rw [hgen]

/-! ## Claim C4 -/

/-- An extraction input whose message keys contain a colon: the composite
key then splits into three parts and `getTranslations` raises
`ValueError` (modelled as `Except.error`). -/
def colonInput : ExtractInput :=
  [("en-US",
    [{ l10nExists := true, refExists := true, keyPath := "e",
       parserOk := true, refEntities := [("a:b", "x")],
       l10nEntities := [("a:b", "x")] }])]

/-- C4, counterexample: a table produced by extraction on which the
reshape-and-filter pass raises instead of returning a mapping. -/
theorem getTranslations_error_on_colon :
    getTranslations "en-US" (extractStrings "en-US" colonInput) =
      .error () := by
  rfl

theorem buildGo_ok_of_good (ts : List (String × String × String))
    (h : ∀ t ∈ ts, (pySplitColon t.2.1).length = 2) :
    ∀ acc, ∃ out, buildGo ts acc = .ok out := by
  induction ts with
  | nil => exact fun acc => ⟨acc, rfl⟩
  | cons t ts ih =>
    intro acc
    have h2 := h t (List.mem_cons_self t ts)
    rcases hsp : pySplitColon t.2.1 with _ | ⟨a, tl⟩
    · rw [hsp] at h2
      simp at h2
    · rcases tl with _ | ⟨b, tl2⟩
      · rw [hsp] at h2
        simp at h2
      · rcases tl2 with _ | ⟨c, tl3⟩
        · have hok : insertTriple acc t = .ok (insertGood acc t.1 a b t.2.2) := by
            unfold insertTriple
            rw [hsp]
          obtain ⟨out, hout⟩ :=
            ih (fun t' ht' => h t' (List.mem_cons_of_mem t ht'))
              (insertGood acc t.1 a b t.2.2)
          refine ⟨out, ?_⟩
          unfold buildGo
          rw [hok]
          exact hout
        · rw [hsp] at h2
          simp at h2

/-- C4, amended: `getTranslations` runs to completion and returns a
mapping for every translation table all of whose keys split into exactly
two colon-separated parts (that is, neither the experiment id nor the
message id contains a `:`). -/
theorem getTranslations_ok_of_one_colon (ref : String) (tbl : Table)
    (h : ∀ p ∈ tbl, ∀ kv ∈ p.2, (pySplitColon kv.1).length = 2) :
    ∃ out, getTranslations ref tbl = .ok out := by
  have hts : ∀ t ∈ triples tbl, (pySplitColon t.2.1).length = 2 := by
    intro t ht
    obtain ⟨l, k, v⟩ := t
    rcases (mem_triples_iff tbl l k v).mp ht with ⟨ld, hld, hkv⟩
    exact h (l, ld) hld (k, v) hkv
  obtain ⟨mid, hmid⟩ := buildGo_ok_of_good (triples tbl) hts []
  refine ⟨finalize (fun xs => xs.dedup) ref mid, ?_⟩
  unfold getTranslations getTranslationsWith buildOutput
  rw [hmid]

theorem getTranslations_ok_of_one_colon_witness :
    ∃ out, getTranslations "en-US"
      [("en-US", [("exp:hello", "H")])] = .ok out :=
  getTranslations_ok_of_one_colon "en-US" [("en-US", [("exp:hello", "H")])]
    (by decide)

/-! ## Claim C7 -/

/-- The `CompositeKey → raw value` pairs the script inserts into the
visiting locale's dict for one file pair (lines 74–81), accounting for the
existence and parser checks. -/
def pairInsertions (fp : FilePair) : List (String × String) :=
  if fp.l10nExists && fp.refExists && fp.parserOk then
    compositeEntries (expIdOf fp.keyPath) fp.l10nEntities
  else []

/-- All insertions into the visiting locale's dict over its file pairs,
in parse order. -/
def localeInsertions (pairs : List FilePair) : List (String × String) :=
  (pairs.map pairInsertions).flatten

theorem dupdate_append {α : Type} (d : List (String × α))
    (A B : List (String × α)) :
    dupdate d (A ++ B) = dupdate (dupdate d A) B := by
  unfold dupdate
  rw [List.foldl_append]

theorem dgetD_updateLocale_self (tr : Table) (l : String)
    (kvs : List (String × String)) :
    dgetD (updateLocale tr l kvs) l [] = dupdate (dgetD tr l []) kvs := by
  unfold dgetD
  rw [dget_updateLocale, if_pos rfl, Option.getD_some]
  rfl

theorem dgetD_processPair_self (ref l : String) (st : ExtractState)
    (fp : FilePair) (hl : l ≠ ref) :
    dgetD (processPair ref l st fp).translations l [] =
      dupdate (dgetD st.translations l []) (pairInsertions fp) := by
  unfold processPair pairInsertions
  by_cases hc : (fp.l10nExists && fp.refExists && fp.parserOk) = true
  · rw [if_pos hc, if_pos hc]
    dsimp only
    by_cases hcache : st.refCache.contains fp.keyPath = true
    · rw [if_pos hcache]
      exact dgetD_updateLocale_self _ _ _
    · rw [if_neg hcache]
      rw [dgetD_updateLocale_self]
      congr 1
      unfold dgetD
      rw [dget_updateLocale, if_neg hl]
  · rw [if_neg hc, if_neg hc]
    rfl

theorem dgetD_foldPairs_self (ref l : String) (hl : l ≠ ref) :
    ∀ (pairs : List FilePair) (st : ExtractState),
    dgetD (pairs.foldl (fun s fp => processPair ref l s fp) st).translations
        l [] =
      dupdate (dgetD st.translations l []) (localeInsertions pairs) := by
  intro pairs
  induction pairs with
  | nil =>
    intro st
    rfl
  | cons fp pairs ih =>
    intro st
    rw [List.foldl_cons, ih]
    have h1 : localeInsertions (fp :: pairs) =
        pairInsertions fp ++ localeInsertions pairs := by
      unfold localeInsertions
      rw [List.map_cons, List.flatten_cons]
    rw [h1, dupdate_append, dgetD_processPair_self ref l st fp hl]

/-- C7: insertion into a locale's table is last-write-wins.  If the latest
parsed entry among a non-reference locale's insertions for CompositeKey `k`
carries value `v`, and `k` survives the per-locale filter (it is a key of
the reference locale's dict), then after the locale is processed its table
stores exactly `v` at `k` — earlier values are overwritten. -/
theorem last_write_wins (ref l : String) (st : ExtractState)
    (pairs : List FilePair) (k v : String) (hl : l ≠ ref)
    (hlast : lastVal (localeInsertions pairs) k = some v)
    (hkept : dmem (dgetD (processLocale ref st (l, pairs)).translations
      ref []) k = true) :
    dget (dgetD (processLocale ref st (l, pairs)).translations l []) k =
      some v := by
  have hrl : ¬ (l == ref) = true := by simp [hl]
  have hfold := dgetD_foldPairs_self ref l hl pairs st
  revert hkept
  unfold processLocale
  dsimp only
  rw [if_neg hrl]
  set st1 := pairs.foldl (fun s fp => processPair ref l s fp) st with hst1
  have hfl : dgetD (filterLocale ref l st1.translations) l [] =
      (dgetD st1.translations l []).filter
        (fun kv => dmem (dgetD st1.translations ref []) kv.1) := by
    unfold dgetD
    rw [dget_filterLocale_self ref l st1.translations hl, Option.getD_some]
    rfl
  have hself : dgetD (ddGet ([] : LocaleTable)
      (filterLocale ref l st1.translations) l).2 l [] =
      dgetD (filterLocale ref l st1.translations) l [] := by
    rw [dgetD_ddGet, if_pos rfl]
  have href : dgetD (ddGet ([] : LocaleTable)
      (filterLocale ref l st1.translations) l).2 ref [] =
      dgetD st1.translations ref [] := by
    rw [dgetD_ddGet,
      if_neg (fun he : ref = l => hl he.symm),
      dgetD_filterLocale_ref ref l st1.translations hl]
  intro hkept
  rw [href] at hkept
  rw [hself, hfl, dget_filterKeys, if_pos hkept, hfold, dget_dupdate, hlast,
    Option.or_some]

def c7Pair : FilePair :=
  { l10nExists := true, refExists := true, keyPath := "e.ftl",
    parserOk := true, refEntities := [("m", "R")],
    l10nEntities := [("m", "v1"), ("m", "v2")] }

theorem last_write_wins_witness :
    (("fr" : String) ≠ "en-US") ∧
      lastVal (localeInsertions [c7Pair]) "e:m" = some "v2" ∧
      dmem (dgetD (processLocale "en-US" ⟨[], []⟩
        ("fr", [c7Pair])).translations "en-US" []) "e:m" = true ∧
      dget (dgetD (processLocale "en-US" ⟨[], []⟩
        ("fr", [c7Pair])).translations "fr" []) "e:m" = some "v2" :=
  ⟨by decide, by decide, by decide,
   last_write_wins "en-US" "fr" ⟨[], []⟩ [c7Pair] "e:m" "v2"
     (by decide) (by decide) (by decide)⟩

/-! ## Claim C10 -/

/-- The composite key the script builds for an entity key of this pair's
file: `f"{experiment_id}:{entity.key}"`. -/
def compositeOf (fp : FilePair) (key : String) : String :=
  expIdOf fp.keyPath ++ ":" ++ key

theorem hasKey_processPair_ref_ins (ref l : String) (st : ExtractState)
    (fp : FilePair) (hl : l ≠ ref)
    (hproc : (fp.l10nExists && fp.refExists && fp.parserOk) = true)
    (hmiss : ¬ st.refCache.contains fp.keyPath = true) :
    ∀ e ∈ fp.refEntities,
      hasKey (processPair ref l st fp).translations ref (compositeOf fp e.1) := by
  intro e he
  unfold processPair
  rw [if_pos hproc]
  dsimp only
  rw [if_neg hmiss]
  dsimp only
  rw [hasKey_updateLocale_iff, if_neg (fun hx : ref = l => hl hx.symm),
    hasKey_updateLocale_iff, if_pos rfl]
  left
  unfold compositeEntries
  rw [List.map_map]
  refine List.mem_map.mpr ⟨e, he, rfl⟩

theorem hasKey_processPair_l10n_ins (ref l : String) (st : ExtractState)
    (fp : FilePair)
    (hproc : (fp.l10nExists && fp.refExists && fp.parserOk) = true) :
    ∀ e ∈ fp.l10nEntities,
      hasKey (processPair ref l st fp).translations l (compositeOf fp e.1) := by
  intro e he
  unfold processPair
  rw [if_pos hproc]
  dsimp only
  rw [hasKey_updateLocale_iff, if_pos rfl]
  left
  unfold compositeEntries
  rw [List.map_map]
  exact List.mem_map.mpr ⟨e, he, rfl⟩

theorem processPair_refCache (ref l : String) (st : ExtractState)
    (fp : FilePair) :
    (processPair ref l st fp).refCache = st.refCache ∨
      (processPair ref l st fp).refCache = st.refCache ++ [fp.keyPath] := by
  unfold processPair
  by_cases hc : (fp.l10nExists && fp.refExists && fp.parserOk) = true
  · rw [if_pos hc]
    dsimp only
    by_cases hcache : st.refCache.contains fp.keyPath = true
    · rw [if_pos hcache]
      exact Or.inl rfl
    · rw [if_neg hcache]
      exact Or.inr rfl
  · rw [if_neg hc]
    exact Or.inl rfl

theorem c10_fold (ref l : String) (hl : l ≠ ref) :
    ∀ (pairs : List FilePair) (st : ExtractState),
    (∀ fp ∈ pairs, st.refCache.contains fp.keyPath = true →
      ∀ e ∈ fp.refEntities, hasKey st.translations ref (compositeOf fp e.1)) →
    (∀ fp ∈ pairs, ∀ fq ∈ pairs, fp.keyPath = fq.keyPath →
      fp.refEntities = fq.refEntities) →
    ∀ fp ∈ pairs, (fp.l10nExists && fp.refExists && fp.parserOk) = true →
      (∀ e ∈ fp.refEntities, hasKey
        (pairs.foldl (fun s q => processPair ref l s q) st).translations ref
        (compositeOf fp e.1)) ∧
      (∀ e ∈ fp.l10nEntities, hasKey
        (pairs.foldl (fun s q => processPair ref l s q) st).translations l
        (compositeOf fp e.1)) := by
  intro pairs
  induction pairs with
  | nil =>
    intro st _ _ fp hfp
    exact absurd hfp (List.not_mem_nil fp)
  | cons fp0 rest ih =>
    intro st hcache hcoh fp hfp hproc
    rw [List.foldl_cons]
    set st1 := processPair ref l st fp0 with hst1
    -- the state after fp0 satisfies the cache hypothesis for rest
    have hfp0ref : (fp0.l10nExists && fp0.refExists && fp0.parserOk) = true →
        ∀ e ∈ fp0.refEntities,
          hasKey st1.translations ref (compositeOf fp0 e.1) := by
      intro hproc0 e he
      by_cases hcc : st.refCache.contains fp0.keyPath = true
      · exact hasKey_processPair_mono ref l st fp0 ref _
          (hcache fp0 (List.mem_cons_self fp0 rest) hcc e he)
      · exact hasKey_processPair_ref_ins ref l st fp0 hl hproc0 hcc e he
    have hcache1 : ∀ fq ∈ rest, st1.refCache.contains fq.keyPath = true →
        ∀ e ∈ fq.refEntities, hasKey st1.translations ref (compositeOf fq e.1) := by
      intro fq hfq hcq e he
      rcases processPair_refCache ref l st fp0 with hrc | hrc
      · rw [hrc] at hcq
        exact hasKey_processPair_mono ref l st fp0 ref _
          (hcache fq (List.mem_cons_of_mem fp0 hfq) hcq e he)
      · rw [hrc] at hcq
        have hmem : fq.keyPath ∈ st.refCache ∨ fq.keyPath = fp0.keyPath := by
          have hmm : fq.keyPath ∈ st.refCache ++ [fp0.keyPath] := by
            simpa using hcq
          rcases List.mem_append.mp hmm with hmm1 | hmm1
          · exact Or.inl hmm1
          · exact Or.inr (List.mem_singleton.mp hmm1)
        rcases hmem with hmm1 | hmm1
        · exact hasKey_processPair_mono ref l st fp0 ref _
            (hcache fq (List.mem_cons_of_mem fp0 hfq) (by simpa using hmm1) e he)
        · -- fp0 ran a cache miss, so fp0 was processed and its entities are in
          have hproc0 : (fp0.l10nExists && fp0.refExists && fp0.parserOk) = true := by
            by_contra hq
            have : st1.refCache = st.refCache := by
              rw [hst1]
              unfold processPair
              rw [if_neg hq]
            rw [this] at hrc
            have := congrArg List.length hrc
            simp at this
          have hent : fq.refEntities = fp0.refEntities :=
            hcoh fq (List.mem_cons_of_mem fp0 hfq) fp0
              (List.mem_cons_self fp0 rest) hmm1
          have hcomp : ∀ key : String, compositeOf fq key = compositeOf fp0 key := by
            intro key
            unfold compositeOf
            rw [hmm1]
          rw [hcomp]
          refine hfp0ref hproc0 e ?_
          rw [← hent]
          exact he
    have hcoh1 : ∀ fq ∈ rest, ∀ fr ∈ rest, fq.keyPath = fr.keyPath →
        fq.refEntities = fr.refEntities := fun fq h1 fr h2 he =>
      hcoh fq (List.mem_cons_of_mem fp0 h1) fr (List.mem_cons_of_mem fp0 h2) he
    rcases List.mem_cons.mp hfp with hfpe | hfpr
    · -- fp is the head pair
      subst hfpe
      constructor
      · intro e he
        exact hasKey_foldPairs_mono ref l st1 rest ref _ (hfp0ref hproc e he)
      · intro e he
        exact hasKey_foldPairs_mono ref l st1 rest l _
          (hasKey_processPair_l10n_ins ref l st fp hproc e he)
    · exact ih st1 hcache1 hcoh1 fp hfpr hproc

/-- C10: when a `(locale, file pair)` is processed, the pair's reference
entities are inserted into the reference locale's dict before the localized
entities are inserted into the visiting locale's dict; consequently the
immediate per-locale filter never discards a CompositeKey that comes from a
reference file the visiting locale itself translates.  The hypotheses state
that the starting cache is sound (every cached `key_path`'s reference
entities are already recorded) and that pairs sharing a `key_path` parse to
the same reference entities (they denote the same file). -/
theorem ref_recorded_before_filter (ref l : String) (st : ExtractState)
    (pairs : List FilePair) (hl : l ≠ ref)
    (hcache : ∀ fp ∈ pairs, st.refCache.contains fp.keyPath = true →
      ∀ e ∈ fp.refEntities, hasKey st.translations ref (compositeOf fp e.1))
    (hcoh : ∀ fp ∈ pairs, ∀ fq ∈ pairs, fp.keyPath = fq.keyPath →
      fp.refEntities = fq.refEntities)
    (fp : FilePair) (hfp : fp ∈ pairs)
    (hproc : (fp.l10nExists && fp.refExists && fp.parserOk) = true) :
    (∀ e ∈ fp.refEntities, hasKey
      (processLocale ref st (l, pairs)).translations ref (compositeOf fp e.1)) ∧
    (∀ e ∈ fp.l10nEntities, e.1 ∈ fp.refEntities.map (fun r => r.1) →
      hasKey (processLocale ref st (l, pairs)).translations l
        (compositeOf fp e.1)) := by
  have hrl : ¬ (l == ref) = true := by simp [hl]
  obtain ⟨hrefs, hl10n⟩ :=
    c10_fold ref l hl pairs st hcache hcoh fp hfp hproc
  unfold processLocale
  dsimp only
  rw [if_neg hrl]
  set T := (pairs.foldl (fun s q => processPair ref l s q) st).translations
    with hT
  constructor
  · intro e he
    rw [hasKey_ddGet]
    exact (hasKey_filterLocale_ref ref l T _ hl).mpr (hrefs e he)
  · intro e he hin
    rw [hasKey_ddGet, hasKey_filterLocale_self_iff ref l T _ hl]
    refine ⟨hl10n e he, ?_⟩
    rcases List.mem_map.mp hin with ⟨r, hr, hre⟩
    have := hrefs r hr
    rw [hre] at this
    exact this

theorem ref_recorded_before_filter_witness :
    (("fr" : String) ≠ "en-US") ∧
      (c7Pair.l10nExists && c7Pair.refExists && c7Pair.parserOk) = true ∧
      hasKey (processLocale "en-US" ⟨[], []⟩
        ("fr", [c7Pair])).translations "en-US" (compositeOf c7Pair "m") ∧
      hasKey (processLocale "en-US" ⟨[], []⟩
        ("fr", [c7Pair])).translations "fr" (compositeOf c7Pair "m") := by
  have h := ref_recorded_before_filter "en-US" "fr" ⟨[], []⟩ [c7Pair]
    (by decide)
    (by
      intro fp hfp hc
      simp [List.contains] at hc)
    (by
      intro fp h1 fq h2 _
      rw [List.mem_singleton] at h1 h2
      rw [h1, h2])
    c7Pair (by decide) (by decide)
  refine ⟨by decide, by decide, ?_, ?_⟩
  · exact h.1 ("m", "R") (by decide)
  · exact h.2 ("m", "v1") (by decide) (by decide)

/-! ## Facts about `json_output` built from an extraction table -/

theorem getTranslationsWith_ok_elim (σ : List String → List String)
    (ref : String) (tbl : Table) (out : List (String × ExpData))
    (h : getTranslationsWith σ ref tbl = .ok out) :
    ∃ mid, buildOutput tbl = .ok mid ∧ out = finalize σ ref mid := by
  unfold getTranslationsWith at h
  cases hb : buildOutput tbl with
  | error e =>
    rw [hb] at h
    exact Except.noConfusion h
  | ok mid =>
    rw [hb] at h
    exact ⟨mid, rfl, (Except.ok.inj h).symm⟩

theorem outHas_mid (tbl : Table) (mid : List (String × ExpData))
    (hb : buildOutput tbl = .ok mid) (hnd : (dkeys tbl).Nodup)
    (e l m : String) :
    OutHas mid e l m ↔ m ∈ localeMsgIds tbl l e := by
  unfold buildOutput at hb
  rw [buildGo_outHas (triples tbl) [] mid hb e l m,
    tripleHas_msgIds tbl hnd l e]
  constructor
  · rintro (h | h)
    · exact absurd h (outHas_nil e l m)
    · exact h
  · exact Or.inr

theorem outVal_mid (tbl : Table) (mid : List (String × ExpData))
    (hb : buildOutput tbl = .ok mid) (hnd : (dkeys tbl).Nodup)
    (e l m : String) :
    OutVal mid e l m = tblLookup tbl l e m := by
  unfold buildOutput at hb
  rw [buildGo_outVal (triples tbl) [] mid hb e l m]
  have h0 : OutVal [] e l m = none := by
    unfold OutVal dgetD
    simp [dget, emptyExp]
  rw [h0, Option.or_none, lastTriple_triples tbl hnd l e m]

theorem mid_nodup (tbl : Table) (mid : List (String × ExpData))
    (hb : buildOutput tbl = .ok mid) : (dkeys mid).Nodup :=
  buildGo_nodup (triples tbl) [] mid hb (by simp [dkeys])

theorem mid_cl (tbl : Table) (mid : List (String × ExpData))
    (hb : buildOutput tbl = .ok mid) (e : String) :
    (dgetD mid e emptyExp).complete_locales = [] :=
  buildGo_cl (triples tbl) [] mid hb
    (fun e => by simp [dgetD, dget, emptyExp]) e

theorem mid_transNodup (tbl : Table) (mid : List (String × ExpData))
    (hb : buildOutput tbl = .ok mid) (e : String) :
    (dkeys (dgetD mid e emptyExp).translations).Nodup :=
  buildGo_transNodup (triples tbl) [] mid hb
    (fun e => by simp [dgetD, dget, emptyExp, dkeys]) e

theorem mid_nonempty (tbl : Table) (mid : List (String × ExpData))
    (hb : buildOutput tbl = .ok mid) (e : String) (hm : dmem mid e = true) :
    ∃ l m, OutHas mid e l m :=
  buildGo_nonempty (triples tbl) [] mid hb
    (fun e hm => absurd hm (by simp [dmem, dget])) e hm

theorem outHas_elim (out : List (String × ExpData)) (eid l m : String)
    (h : OutHas out eid l m) :
    ∃ d, dget (dgetD out eid emptyExp).translations l = some d ∧
      m ∈ dkeys d := by
  have h2 : m ∈ dkeys ((dget (dgetD out eid emptyExp).translations l).getD []) :=
    h
  cases hd : dget (dgetD out eid emptyExp).translations l with
  | none =>
    rw [hd] at h2
    simp [dkeys] at h2
  | some d =>
    rw [hd, Option.getD_some] at h2
    exact ⟨d, rfl, h2⟩

theorem locale_mem_of_msg (tr : Table) (l a : String)
    (h : a ∈ dkeys (dgetD tr l [])) : l ∈ dkeys tr := by
  cases hget : dget tr l with
  | none =>
    have hz : dgetD tr l [] = [] := by
      unfold dgetD
      rw [hget]
      rfl
    rw [hz] at h
    simp [dkeys] at h
  | some d =>
    rw [dkeys_mem_iff]
    exact ⟨d, hget⟩

theorem supersetCond_iff (A B : List String) :
    supersetCond A B = true ↔ ∀ a ∈ A, a ∈ B := by
  unfold supersetCond
  rw [List.all_eq_true]
  constructor
  · intro h a ha
    have := h a ha
    simpa using this
  · intro h a ha
    simpa using h a ha

theorem supersetCond_refl (A : List String) : supersetCond A A = true :=
  (supersetCond_iff A A).mpr (fun _ ha => ha)

theorem bridge_ids (ref : String) (input : ExtractInput)
    (mid : List (String × ExpData)) (ed0 : ExpData) (eid : String)
    (hb : buildOutput (extractStrings ref input) = .ok mid)
    (hed0 : dget mid eid = some ed0) (l a : String) :
    a ∈ dkeys (dgetD ed0.translations l []) ↔
      a ∈ localeMsgIds (extractStrings ref input) l eid := by
  have hwf := wft_extract ref input
  have hed0d : dgetD mid eid emptyExp = ed0 := by
    unfold dgetD
    rw [hed0, Option.getD_some]
  have h1 : OutHas mid eid l a ↔ a ∈ dkeys (dgetD ed0.translations l []) := by
    unfold OutHas
    rw [hed0d]
  rw [← h1]
  exact outHas_mid _ mid hb hwf.1 eid l a

theorem mid_ref_entry (ref : String) (input : ExtractInput)
    (mid : List (String × ExpData)) (ed0 : ExpData) (eid : String)
    (hb : buildOutput (extractStrings ref input) = .ok mid)
    (hed0 : dget mid eid = some ed0) :
    ∃ rd, dget ed0.translations ref = some rd ∧ rd ≠ [] := by
  set tbl := extractStrings ref input with htbl
  have hwf := wft_extract ref input
  have hed0d : dgetD mid eid emptyExp = ed0 := by
    unfold dgetD
    rw [hed0, Option.getD_some]
  have hm : dmem mid eid = true := by
    rw [dmem_iff]
    exact ⟨ed0, hed0⟩
  obtain ⟨l, m, hOH⟩ := mid_nonempty tbl mid hb eid hm
  have hms : m ∈ localeMsgIds tbl l eid :=
    (outHas_mid tbl mid hb hwf.1 eid l m).mp hOH
  obtain ⟨k, v, hkv, hsp⟩ := (mem_localeMsgIds tbl l eid m).mp hms
  have hhk : hasKey tbl l k := by
    unfold hasKey
    rw [dkeys_mem_iff]
    exact ⟨v, dget_eq_of_mem_nodup _ k v (dgetD_nodup tbl l hwf) hkv⟩
  have hrk : hasKey tbl ref k := by
    by_cases hlref : l = ref
    · rw [← hlref]
      exact hhk
    · exact refInv_extract ref input l hlref k hhk
  unfold hasKey at hrk
  obtain ⟨v', hv'⟩ := (dkeys_mem_iff _ k).mp hrk
  have hms' : m ∈ localeMsgIds tbl ref eid :=
    (mem_localeMsgIds tbl ref eid m).mpr
      ⟨k, v', mem_of_dget_eq _ k v' hv', hsp⟩
  have hOH' : OutHas mid eid ref m :=
    (outHas_mid tbl mid hb hwf.1 eid ref m).mpr hms'
  obtain ⟨rd, hrd, hmrd⟩ := outHas_elim mid eid ref m hOH'
  rw [hed0d] at hrd
  refine ⟨rd, hrd, ?_⟩
  intro hnil
  rw [hnil] at hmrd
  simp [dkeys] at hmrd

theorem out_record (σ : List String → List String) (ref : String)
    (input : ExtractInput) (out : List (String × ExpData)) (eid : String)
    (ed : ExpData)
    (hok : getTranslationsWith σ ref (extractStrings ref input) = .ok out)
    (hmem : (eid, ed) ∈ out) :
    ∃ mid ed0 rd,
      buildOutput (extractStrings ref input) = .ok mid ∧
      dget mid eid = some ed0 ∧
      dget ed0.translations ref = some rd ∧ rd ≠ [] ∧
      ed0.complete_locales = [] ∧
      (dkeys ed0.translations).Nodup ∧
      (processExpWith σ ref ed0).2 = false ∧
      ed = (processExpWith σ ref ed0).1 := by
  obtain ⟨mid, hb, hout⟩ := getTranslationsWith_ok_elim σ ref _ out hok
  subst hout
  have hndmid := mid_nodup _ mid hb
  have hget : dget (finalize σ ref mid) eid = some ed :=
    (mem_iff_dget _ eid ed (nodup_dkeys_finalize σ ref mid hndmid)).mp hmem
  rw [dget_finalize σ ref mid hndmid eid] at hget
  cases hed0 : dget mid eid with
  | none =>
    rw [hed0] at hget
    exact Option.noConfusion hget
  | some ed0 =>
    rw [hed0] at hget
    dsimp only at hget
    by_cases hflag : (processExpWith σ ref ed0).2 = true
    · rw [if_pos hflag] at hget
      exact Option.noConfusion hget
    · rw [if_neg hflag] at hget
      have hflag' : (processExpWith σ ref ed0).2 = false := by
        cases hf : (processExpWith σ ref ed0).2
        · rfl
        · exact absurd hf hflag
      obtain ⟨rd, hrd, hrdne⟩ := mid_ref_entry ref input mid ed0 eid hb hed0
      have hed0d : dgetD mid eid emptyExp = ed0 := by
        unfold dgetD
        rw [hed0, Option.getD_some]
      refine ⟨mid, ed0, rd, hb, hed0, hrd, hrdne, ?_, ?_, hflag',
        (Option.some.inj hget).symm⟩
      · have := mid_cl _ mid hb eid
        rw [hed0d] at this
        exact this
      · have := mid_transNodup _ mid hb eid
        rw [hed0d] at this
        exact this

theorem mem_keepFilter (K : List String) (c : String → Bool) (z : String) :
    z ∈ (sortStr K).filter
        (fun l => !((sortStr K).filter (fun y => !c y)).contains l) ↔
      z ∈ K ∧ c z = true := by
  rw [List.mem_filter, mem_sortStr]
  constructor
  · rintro ⟨h1, h2⟩
    refine ⟨h1, ?_⟩
    by_contra hcc
    have hcz : c z = false := by
      cases hc2 : c z
      · rfl
      · exact absurd hc2 hcc
    have hmem2 : z ∈ (sortStr K).filter (fun y => !c y) := by
      rw [List.mem_filter, mem_sortStr]
      refine ⟨h1, ?_⟩
      rw [hcz]
      rfl
    have hcont : ((sortStr K).filter (fun y => !c y)).contains z = true := by
      simpa using hmem2
    rw [hcont] at h2
    simp at h2
  · rintro ⟨h1, h2⟩
    refine ⟨h1, ?_⟩
    have hnot : z ∉ (sortStr K).filter (fun y => !c y) := by
      rw [List.mem_filter]
      rintro ⟨_, hq⟩
      rw [h2] at hq
      simp at hq
    have hcf : ((sortStr K).filter (fun y => !c y)).contains z = false := by
      cases hcc : ((sortStr K).filter (fun y => !c y)).contains z
      · rfl
      · exact absurd (by simpa using hcc) hnot
    rw [hcf]
    rfl

/-! ## Claim C1 -/

/-- C1: for every experiment in the output of `getTranslations` run on an
extraction table, `complete_locales` is sorted ascending, and a locale is
listed in it exactly when its message-id set for the experiment is a
superset of the reference locale's message-id set. -/
theorem complete_locales_sorted_and_superset (ref : String)
    (input : ExtractInput) (out : List (String × ExpData)) (eid : String)
    (ed : ExpData)
    (hok : getTranslations ref (extractStrings ref input) = .ok out)
    (hmem : (eid, ed) ∈ out) :
    List.Sorted (fun a b : String => a ≤ b) ed.complete_locales ∧
      ∀ l, l ∈ ed.complete_locales ↔
        ∀ m ∈ localeMsgIds (extractStrings ref input) ref eid,
          m ∈ localeMsgIds (extractStrings ref input) l eid := by
  obtain ⟨mid, ed0, rd, hb, hed0, hrd, hrdne, hcl0, hnd0, hflag, hedeq⟩ :=
    out_record (fun xs => xs.dedup) ref input out eid ed hok hmem
  have hspec := processExpWith_spec (fun xs => xs.dedup) ref ed0 rd hrd hcl0
  have hrdd : dgetD ed0.translations ref [] = rd := by
    unfold dgetD
    rw [hrd, Option.getD_some]
  have hedcl : ed.complete_locales =
      sortStr ((sortStr (dkeys ed0.translations)).filter
        (fun l => supersetCond (dkeys rd)
          (dkeys (dgetD ed0.translations l [])))) := by
    rw [hedeq, hspec]
  constructor
  · rw [hedcl]
    exact sorted_sortStr _
  · intro l
    rw [hedcl, mem_sortStr, List.mem_filter, mem_sortStr]
    constructor
    · rintro ⟨hl, hc⟩
      intro m hm
      have hm1 : m ∈ dkeys (dgetD ed0.translations ref []) :=
        (bridge_ids ref input mid ed0 eid hb hed0 ref m).mpr hm
      rw [hrdd] at hm1
      have h2 := (supersetCond_iff _ _).mp hc m hm1
      exact (bridge_ids ref input mid ed0 eid hb hed0 l m).mp h2
    · intro hsup
      have hc : supersetCond (dkeys rd)
          (dkeys (dgetD ed0.translations l [])) = true := by
        rw [supersetCond_iff]
        intro a ha
        rw [bridge_ids ref input mid ed0 eid hb hed0 l a]
        apply hsup
        rw [← bridge_ids ref input mid ed0 eid hb hed0 ref a, hrdd]
        exact ha
      refine ⟨?_, hc⟩
      obtain ⟨kv, hkv⟩ := List.exists_mem_of_ne_nil rd hrdne
      have hm0 : kv.1 ∈ dkeys rd := List.mem_map.mpr ⟨kv, hkv, rfl⟩
      have hm1 : kv.1 ∈ dkeys (dgetD ed0.translations l []) :=
        (supersetCond_iff _ _).mp hc kv.1 hm0
      exact locale_mem_of_msg ed0.translations l kv.1 hm1

def sampleExp : ExpData :=
  { translations :=
      [("en-US", [("hello", "H"), ("bye", "B")]),
       ("fr", [("hello", "salut"), ("bye", "aurevoir")])],
    complete_locales := ["en-US", "fr"] }

def sampleOut : List (String × ExpData) := [("exp", sampleExp)]

theorem complete_locales_sorted_and_superset_witness :
    (getTranslations "en-US" (extractStrings "en-US" sampleInput) =
        .ok sampleOut) ∧
      ("exp", sampleExp) ∈ sampleOut ∧
      (List.Sorted (fun a b : String => a ≤ b) sampleExp.complete_locales ∧
        ∀ l, l ∈ sampleExp.complete_locales ↔
          ∀ m ∈ localeMsgIds (extractStrings "en-US" sampleInput) "en-US" "exp",
            m ∈ localeMsgIds (extractStrings "en-US" sampleInput) l "exp") :=
  ⟨by rfl, by decide,
   complete_locales_sorted_and_superset "en-US" sampleInput sampleOut "exp"
     sampleExp (by rfl) (by decide)⟩

/-! ## Claim C9 -/

/-- C9: for every experiment record in the output, the locale keys of
`translations` are exactly the locales listed in `complete_locales`. -/
theorem translations_keys_match_complete_locales (ref : String)
    (input : ExtractInput) (out : List (String × ExpData)) (eid : String)
    (ed : ExpData)
    (hok : getTranslations ref (extractStrings ref input) = .ok out)
    (hmem : (eid, ed) ∈ out) :
    ∀ l, l ∈ dkeys ed.translations ↔ l ∈ ed.complete_locales := by
  obtain ⟨mid, ed0, rd, hb, hed0, hrd, hrdne, hcl0, hnd0, hflag, hedeq⟩ :=
    out_record (fun xs => xs.dedup) ref input out eid ed hok hmem
  have hspec := processExpWith_spec (fun xs => xs.dedup) ref ed0 rd hrd hcl0
  have hedtr : ed.translations =
      ((sortStr (dkeys ed0.translations)).filter
        (fun l => !supersetCond (dkeys rd)
          (dkeys (dgetD ed0.translations l [])))).foldl
        (fun t l => ddel t l) ed0.translations := by
    rw [hedeq, hspec]
  have hedcl : ed.complete_locales =
      sortStr ((sortStr (dkeys ed0.translations)).filter
        (fun l => supersetCond (dkeys rd)
          (dkeys (dgetD ed0.translations l [])))) := by
    rw [hedeq, hspec]
  intro l
  rw [hedtr, hedcl, mem_sortStr, List.mem_filter, mem_sortStr,
    dkeys_mem_iff]
  constructor
  · rintro ⟨d, hd⟩
    rw [dget_foldl_ddel] at hd
    by_cases hcont : ((sortStr (dkeys ed0.translations)).filter
        (fun z => !supersetCond (dkeys rd)
          (dkeys (dgetD ed0.translations z [])))).contains l = true
    · rw [if_pos hcont] at hd
      exact Option.noConfusion hd
    · rw [if_neg hcont] at hd
      have hl : l ∈ dkeys ed0.translations := (dkeys_mem_iff _ _).mpr ⟨d, hd⟩
      refine ⟨hl, ?_⟩
      by_contra hcc
      have hcz : supersetCond (dkeys rd)
          (dkeys (dgetD ed0.translations l [])) = false := by
        cases hc2 : supersetCond (dkeys rd) (dkeys (dgetD ed0.translations l []))
        · rfl
        · exact absurd hc2 hcc
      refine hcont ?_
      have hmem2 : l ∈ (sortStr (dkeys ed0.translations)).filter
          (fun z => !supersetCond (dkeys rd)
            (dkeys (dgetD ed0.translations z []))) := by
        rw [List.mem_filter, mem_sortStr]
        refine ⟨hl, ?_⟩
        rw [hcz]
        rfl
      simpa using hmem2
  · rintro ⟨hl, hc⟩
    obtain ⟨d, hd⟩ := (dkeys_mem_iff _ _).mp hl
    refine ⟨d, ?_⟩
    rw [dget_foldl_ddel, if_neg, hd]
    intro hcont
    have hmem2 : l ∈ (sortStr (dkeys ed0.translations)).filter
        (fun z => !supersetCond (dkeys rd)
          (dkeys (dgetD ed0.translations z []))) := by
      simpa using hcont
    rw [List.mem_filter] at hmem2
    rw [hc] at hmem2
    simp at hmem2

theorem translations_keys_match_complete_locales_witness :
    (getTranslations "en-US" (extractStrings "en-US" sampleInput) =
        .ok sampleOut) ∧
      ("exp", sampleExp) ∈ sampleOut ∧
      ∀ l, l ∈ dkeys sampleExp.translations ↔
        l ∈ sampleExp.complete_locales :=
  ⟨by rfl, by decide,
   translations_keys_match_complete_locales "en-US" sampleInput sampleOut
     "exp" sampleExp (by rfl) (by decide)⟩

/-! ## Claim C5 -/

/-- C5: for every experiment in the output, the reference locale's entries
are present in the record's `translations`; entry by entry they are exactly
the reference locale's raw values for that experiment from the extraction
table (the reference locale is trivially complete and never removed). -/
theorem reference_entries_always_present (ref : String)
    (input : ExtractInput) (out : List (String × ExpData)) (eid : String)
    (ed : ExpData)
    (hok : getTranslations ref (extractStrings ref input) = .ok out)
    (hmem : (eid, ed) ∈ out) :
    dmem ed.translations ref = true ∧
      ∀ m, dget (dgetD ed.translations ref []) m =
        tblLookup (extractStrings ref input) ref eid m := by
  obtain ⟨mid, ed0, rd, hb, hed0, hrd, hrdne, hcl0, hnd0, hflag, hedeq⟩ :=
    out_record (fun xs => xs.dedup) ref input out eid ed hok hmem
  have hspec := processExpWith_spec (fun xs => xs.dedup) ref ed0 rd hrd hcl0
  have hrdd : dgetD ed0.translations ref [] = rd := by
    unfold dgetD
    rw [hrd, Option.getD_some]
  have hedtr : ed.translations =
      ((sortStr (dkeys ed0.translations)).filter
        (fun l => !supersetCond (dkeys rd)
          (dkeys (dgetD ed0.translations l [])))).foldl
        (fun t l => ddel t l) ed0.translations := by
    rw [hedeq, hspec]
  have hcondref : supersetCond (dkeys rd)
      (dkeys (dgetD ed0.translations ref [])) = true := by
    rw [hrdd]
    exact supersetCond_refl _
  have hnotin : ¬ ((sortStr (dkeys ed0.translations)).filter
      (fun z => !supersetCond (dkeys rd)
        (dkeys (dgetD ed0.translations z [])))).contains ref = true := by
    intro hcont
    have hmem2 : ref ∈ (sortStr (dkeys ed0.translations)).filter
        (fun z => !supersetCond (dkeys rd)
          (dkeys (dgetD ed0.translations z []))) := by
      simpa using hcont
    rw [List.mem_filter] at hmem2
    rw [hcondref] at hmem2
    simp at hmem2
  have hdget : dget ed.translations ref = some rd := by
    rw [hedtr, dget_foldl_ddel, if_neg hnotin, hrd]
  constructor
  · rw [dmem_iff]
    exact ⟨rd, hdget⟩
  · intro m
    have hdd : dgetD ed.translations ref [] = rd := by
      unfold dgetD
      rw [hdget, Option.getD_some]
    rw [hdd]
    have hed0d : dgetD mid eid emptyExp = ed0 := by
      unfold dgetD
      rw [hed0, Option.getD_some]
    have hov : OutVal mid eid ref m = dget rd m := by
      unfold OutVal
      rw [hed0d, hrdd]
    rw [← hov]
    exact outVal_mid _ mid hb (wft_extract ref input).1 eid ref m

theorem reference_entries_always_present_witness :
    (getTranslations "en-US" (extractStrings "en-US" sampleInput) =
        .ok sampleOut) ∧
      ("exp", sampleExp) ∈ sampleOut ∧
      dmem sampleExp.translations "en-US" = true ∧
      ∀ m, dget (dgetD sampleExp.translations "en-US" []) m =
        tblLookup (extractStrings "en-US" sampleInput) "en-US" "exp" m := by
  have h := reference_entries_always_present "en-US" sampleInput sampleOut
    "exp" sampleExp (by rfl) (by decide)
  exact ⟨by rfl, by decide, h.1, h.2⟩

theorem dedup_eq_single_iff (xs : List String) (r : String) :
    xs.dedup = [r] ↔ xs ≠ [] ∧ ∀ a ∈ xs, a = r :=
  setEnum_eq_single (fun xs => xs.dedup) setEnum_dedup xs r

/-! ## Claim C2 -/

/-- C2: an experiment that has at least one message in some locale of the
extraction table appears in the output of `getTranslations` iff at least
one non-reference locale's message-id set for it is a superset of the
reference locale's message-id set; consequently no output record has the
reference locale as its sole complete locale. -/
theorem experiment_kept_iff_nonref_complete (ref : String)
    (input : ExtractInput) (out : List (String × ExpData)) (eid : String)
    (hok : getTranslations ref (extractStrings ref input) = .ok out)
    (hexp : ∃ l m, m ∈ localeMsgIds (extractStrings ref input) l eid) :
    (eid ∈ dkeys out ↔
      ∃ l, l ≠ ref ∧
        ∀ m ∈ localeMsgIds (extractStrings ref input) ref eid,
          m ∈ localeMsgIds (extractStrings ref input) l eid) ∧
    ∀ ed, (eid, ed) ∈ out → ed.complete_locales ≠ [ref] := by
  obtain ⟨mid, hb, hout⟩ :=
    getTranslationsWith_ok_elim (fun xs => xs.dedup) ref _ out hok
  subst hout
  have hwf := wft_extract ref input
  have hndmid := mid_nodup _ mid hb
  obtain ⟨l0, m0, hm0⟩ := hexp
  have hOH0 : OutHas mid eid l0 m0 :=
    (outHas_mid _ mid hb hwf.1 eid l0 m0).mpr hm0
  have hmm : dmem mid eid = true := outHas_dmem mid eid l0 m0 hOH0
  obtain ⟨ed0, hed0⟩ := (dmem_iff mid eid).mp hmm
  obtain ⟨rd, hrd, hrdne⟩ := mid_ref_entry ref input mid ed0 eid hb hed0
  have hed0d : dgetD mid eid emptyExp = ed0 := by
    unfold dgetD
    rw [hed0, Option.getD_some]
  have hcl0 : ed0.complete_locales = [] := by
    have h := mid_cl _ mid hb eid
    rw [hed0d] at h
    exact h
  have hspec := processExpWith_spec (fun xs => xs.dedup) ref ed0 rd hrd hcl0
  have hrdd : dgetD ed0.translations ref [] = rd := by
    unfold dgetD
    rw [hrd, Option.getD_some]
  have hcondref : supersetCond (dkeys rd)
      (dkeys (dgetD ed0.translations ref [])) = true := by
    rw [hrdd]
    exact supersetCond_refl _
  have hrefk : ref ∈ dkeys ed0.translations :=
    (dkeys_mem_iff _ _).mpr ⟨rd, hrd⟩
  have hkeepmem : ∀ z, z ∈ (sortStr (dkeys ed0.translations)).filter
      (fun l => !((sortStr (dkeys ed0.translations)).filter
        (fun y => !supersetCond (dkeys rd)
          (dkeys (dgetD ed0.translations y [])))).contains l) ↔
      z ∈ dkeys ed0.translations ∧
        supersetCond (dkeys rd) (dkeys (dgetD ed0.translations z [])) = true :=
    fun z => mem_keepFilter (dkeys ed0.translations)
      (fun l => supersetCond (dkeys rd) (dkeys (dgetD ed0.translations l []))) z
  have hflageq : (processExpWith (fun xs => xs.dedup) ref ed0).2 =
      (((sortStr (dkeys ed0.translations)).filter
        (fun l => !((sortStr (dkeys ed0.translations)).filter
          (fun y => !supersetCond (dkeys rd)
            (dkeys (dgetD ed0.translations y [])))).contains l)).dedup
        == [ref]) := by
    rw [hspec]
  have hflagiff : (processExpWith (fun xs => xs.dedup) ref ed0).2 = true ↔
      ∀ z, z ∈ dkeys ed0.translations →
        supersetCond (dkeys rd) (dkeys (dgetD ed0.translations z [])) = true →
        z = ref := by
    rw [hflageq, beq_iff_eq, dedup_eq_single_iff]
    constructor
    · rintro ⟨_, hall⟩ z hz hc
      exact hall z ((hkeepmem z).mpr ⟨hz, hc⟩)
    · intro hall
      have hrefkeep := (hkeepmem ref).mpr ⟨hrefk, hcondref⟩
      refine ⟨?_, fun a ha => ?_⟩
      · intro hnil
        rw [hnil] at hrefkeep
        exact absurd hrefkeep (List.not_mem_nil ref)
      · obtain ⟨h1, h2⟩ := (hkeepmem a).mp ha
        exact hall a h1 h2
  have hiff1 : eid ∈ dkeys (finalize (fun xs => xs.dedup) ref mid) ↔
      (processExpWith (fun xs => xs.dedup) ref ed0).2 = false := by
    rw [dkeys_mem_iff]
    constructor
    · rintro ⟨ed, hed⟩
      rw [dget_finalize _ ref mid hndmid eid, hed0] at hed
      dsimp only at hed
      cases hf : (processExpWith (fun xs => xs.dedup) ref ed0).2
      · rfl
      · rw [hf] at hed
        simp at hed
    · intro hf
      refine ⟨(processExpWith (fun xs => xs.dedup) ref ed0).1, ?_⟩
      rw [dget_finalize _ ref mid hndmid eid, hed0]
      dsimp only
      rw [hf]
      simp
  constructor
  · rw [hiff1]
    constructor
    · intro hf
      have hnot : ¬ ∀ z, z ∈ dkeys ed0.translations →
          supersetCond (dkeys rd)
            (dkeys (dgetD ed0.translations z [])) = true →
          z = ref := by
        intro hall
        have ht := hflagiff.mpr hall
        rw [hf] at ht
        exact Bool.noConfusion ht
      push_neg at hnot
      obtain ⟨z, hz1, hz2, hz3⟩ := hnot
      refine ⟨z, hz3, ?_⟩
      intro m hm
      have hm1 : m ∈ dkeys (dgetD ed0.translations ref []) :=
        (bridge_ids ref input mid ed0 eid hb hed0 ref m).mpr hm
      rw [hrdd] at hm1
      have h2 := (supersetCond_iff _ _).mp hz2 m hm1
      exact (bridge_ids ref input mid ed0 eid hb hed0 z m).mp h2
    · rintro ⟨l, hlref, hsup⟩
      have hc : supersetCond (dkeys rd)
          (dkeys (dgetD ed0.translations l [])) = true := by
        rw [supersetCond_iff]
        intro a ha
        rw [bridge_ids ref input mid ed0 eid hb hed0 l a]
        apply hsup
        rw [← bridge_ids ref input mid ed0 eid hb hed0 ref a, hrdd]
        exact ha
      have hl : l ∈ dkeys ed0.translations := by
        obtain ⟨kv, hkv⟩ := List.exists_mem_of_ne_nil rd hrdne
        have hm0' : kv.1 ∈ dkeys rd := List.mem_map.mpr ⟨kv, hkv, rfl⟩
        have hm1 : kv.1 ∈ dkeys (dgetD ed0.translations l []) :=
          (supersetCond_iff _ _).mp hc kv.1 hm0'
        exact locale_mem_of_msg ed0.translations l kv.1 hm1
      cases hf : (processExpWith (fun xs => xs.dedup) ref ed0).2
      · rfl
      · exact absurd (hflagiff.mp hf l hl hc) hlref
  · intro ed hmem2 hclref
    have hget2 : dget (finalize (fun xs => xs.dedup) ref mid) eid = some ed :=
      (mem_iff_dget _ eid ed (nodup_dkeys_finalize _ ref mid hndmid)).mp hmem2
    rw [dget_finalize _ ref mid hndmid eid, hed0] at hget2
    dsimp only at hget2
    cases hf : (processExpWith (fun xs => xs.dedup) ref ed0).2 with
    | true =>
      rw [hf] at hget2
      simp at hget2
    | false =>
      rw [hf] at hget2
      simp at hget2
      rw [← hget2] at hclref
      rw [hspec] at hclref
      dsimp only at hclref
      have hall : ∀ z, z ∈ dkeys ed0.translations →
          supersetCond (dkeys rd)
            (dkeys (dgetD ed0.translations z [])) = true →
          z = ref := by
        intro z hz hcz
        have hzmem : z ∈ sortStr ((sortStr (dkeys ed0.translations)).filter
            (fun l => supersetCond (dkeys rd)
              (dkeys (dgetD ed0.translations l [])))) := by
          rw [mem_sortStr, List.mem_filter, mem_sortStr]
          exact ⟨hz, hcz⟩
        rw [hclref] at hzmem
        exact List.mem_singleton.mp hzmem
      have ht := hflagiff.mpr hall
      rw [hf] at ht
      exact Bool.noConfusion ht

theorem experiment_kept_iff_nonref_complete_witness :
    (getTranslations "en-US" (extractStrings "en-US" sampleInput) =
        .ok sampleOut) ∧
      (∃ l m, m ∈ localeMsgIds (extractStrings "en-US" sampleInput) l "exp") ∧
      ((("exp" : String) ∈ dkeys sampleOut ↔
        ∃ l, l ≠ "en-US" ∧
          ∀ m ∈ localeMsgIds (extractStrings "en-US" sampleInput) "en-US" "exp",
            m ∈ localeMsgIds (extractStrings "en-US" sampleInput) l "exp") ∧
       ∀ ed, ("exp", ed) ∈ sampleOut → ed.complete_locales ≠ ["en-US"]) :=
  ⟨by rfl, ⟨"fr", "hello", by decide⟩,
   experiment_kept_iff_nonref_complete "en-US" sampleInput sampleOut "exp"
     (by rfl) ⟨"fr", "hello", by decide⟩⟩

theorem setEnum_beq_single (σ₁ σ₂ : List String → List String)
    (h₁ : SetEnum σ₁) (h₂ : SetEnum σ₂) (xs : List String) (r : String) :
    (σ₁ xs == [r]) = (σ₂ xs == [r]) := by
  cases hb2 : σ₂ xs == [r]
  · cases hb1 : σ₁ xs == [r]
    · rfl
    · exfalso
      have he1 : σ₁ xs = [r] := eq_of_beq hb1
      have hp := (setEnum_eq_single σ₁ h₁ xs r).mp he1
      have he2 : σ₂ xs = [r] := (setEnum_eq_single σ₂ h₂ xs r).mpr hp
      rw [he2] at hb2
      simp at hb2
  · have he2 : σ₂ xs = [r] := eq_of_beq hb2
    have hp := (setEnum_eq_single σ₂ h₂ xs r).mp he2
    have he1 : σ₁ xs = [r] := (setEnum_eq_single σ₁ h₁ xs r).mpr hp
    rw [he1]
    simp

theorem processExpWith_congr (σ₁ σ₂ : List String → List String)
    (h₁ : SetEnum σ₁) (h₂ : SetEnum σ₂) (ref : String) (ed : ExpData) :
    processExpWith σ₁ ref ed = processExpWith σ₂ ref ed := by
  unfold processExpWith
  dsimp only
  rw [setEnum_beq_single σ₁ σ₂ h₁ h₂ _ ref]

theorem finalize_congr (σ₁ σ₂ : List String → List String)
    (h₁ : SetEnum σ₁) (h₂ : SetEnum σ₂) (ref : String)
    (mid : List (String × ExpData)) :
    finalize σ₁ ref mid = finalize σ₂ ref mid := by
  unfold finalize
  have hmap : mid.map (fun p => (p.1, processExpWith σ₁ ref p.2)) =
      mid.map (fun p => (p.1, processExpWith σ₂ ref p.2)) :=
    List.map_congr_left
      (fun p _ => by rw [processExpWith_congr σ₁ σ₂ h₁ h₂ ref p.2])
  dsimp only
  rw [hmap]

/-! ## Claim C8 -/

/-- C8: the pipeline is deterministic.  The only run-to-run variation in
the code is the iteration order of Python sets (`list(set(locales) -
set(incomplete_locales))`, which depends on `PYTHONHASHSEED`); modelling
that order as an arbitrary set-enumeration function, any two runs of
extraction followed by the reshape-and-filter pass on identical input
produce identical output mappings. -/
theorem pipeline_deterministic (σ₁ σ₂ : List String → List String)
    (h₁ : SetEnum σ₁) (h₂ : SetEnum σ₂) (ref : String)
    (input : ExtractInput) :
    getTranslationsWith σ₁ ref (extractStrings ref input) =
      getTranslationsWith σ₂ ref (extractStrings ref input) := by
  unfold getTranslationsWith
  cases hb : buildOutput (extractStrings ref input) with
  | error e => rfl
  | ok mid =>
    dsimp only
    rw [finalize_congr σ₁ σ₂ h₁ h₂ ref mid]

theorem setEnum_revDedup : SetEnum (fun xs => ((xs.reverse).dedup).reverse) := by
  intro xs
  constructor
  · exact List.nodup_reverse.mpr (List.nodup_dedup _)
  · intro a
    simp

theorem pipeline_deterministic_witness :
    SetEnum (fun xs => xs.dedup) ∧
      SetEnum (fun xs => ((xs.reverse).dedup).reverse) ∧
      getTranslationsWith (fun xs => xs.dedup) "en-US"
          (extractStrings "en-US" sampleInput) =
        getTranslationsWith (fun xs => ((xs.reverse).dedup).reverse) "en-US"
          (extractStrings "en-US" sampleInput) :=
  ⟨setEnum_dedup, setEnum_revDedup,
   pipeline_deterministic _ _ setEnum_dedup setEnum_revDedup "en-US"
     sampleInput⟩

end NimbusExtract
